import Mathlib

/-!
Verification of the Fieldscope graph-construction and drag-layout core.

The definitions in the first half of this file are a shallow embedding of the
functions `buildGraph`, `safeStr` and `renderSankey` of `src/sankeyGraph.js`
(shipped inside `src/main.js`) and of the `d3.drag` handlers (`start`, `drag`,
`end`) installed by `renderSankey`.  JS `Map`s are modelled as insertion-ordered
association lists, JS numbers in the layout code as rationals, and JS strings as
Lean strings (with an explicit model of `String.prototype.split` on the fixed
separator `"|||"`).  The second half states and proves the specification claims.
-/

namespace Fieldscope

/-! ## The embedding: data model and operations from the source -/

/-- Models JS `Map.get`: the value stored at key `k`, if any. -/
def lookupKV {β : Type} (m : List (String × β)) (k : String) : Option β :=
  (m.find? (fun p => p.1 == k)).map (fun p => p.2)

/-- Models JS `Map.set`: update in place when the key is present (keeping its
position in insertion order), otherwise append at the end. -/
def setKV {β : Type} (m : List (String × β)) (k : String) (v : β) : List (String × β) :=
  if (lookupKV m k).isSome then
    m.map (fun p => if p.1 = k then (k, v) else p)
  else m ++ [(k, v)]

/-- A spreadsheet row: an ordered mapping from column name to the (already
string-coerced, untrimmed) cell value.  A missing key models a JS `undefined`
field. -/
def Row : Type := List (String × String)

instance : DecidableEq Row := by unfold Row; infer_instance

instance : Inhabited Row := ⟨([] : List (String × String))⟩

/-- JS `String.prototype.trim`: strip whitespace from both ends.  (Lean's own
`String.trim` is extensionally the same on ASCII input but is defined by
well-founded recursion on byte positions, so this executable character-list
version is used instead.) -/
def trimStr (s : String) : String :=
  String.mk (((s.data.dropWhile Char.isWhitespace).reverse.dropWhile Char.isWhitespace).reverse)

/-- `safeStr` from the source: `null`/`undefined` become `""`, anything else is
string-coerced and trimmed. -/
def safeStr : Option String → String
  | none => ""
  | some v => trimStr v

/-- `getVal` from `buildGraph`: `safeStr(row[col])`. -/
def getVal (row : Row) (col : String) : String := safeStr (lookupKV row col)

structure GNode where
  id : String
  name : String
  side : String
deriving DecidableEq, Repr

structure LinkEntry where
  count : Nat
  refIds : List Nat
deriving DecidableEq, Repr

structure GLink where
  source : String
  target : String
  value : Nat
deriving DecidableEq, Repr

structure Graph where
  nodes : List GNode
  links : List GLink
deriving DecidableEq, Repr

structure BuildResult where
  graph : Graph
  byLinkKey : List (String × LinkEntry)
  refCountMax : Nat
deriving DecidableEq, Repr

/-- The link-key separator used by the source: `` `${s}|||${t}` ``. -/
def sepStr : String := "|||"

/-- The aggregation key of a `(source value, target value)` pair. -/
def mkKey (s t : String) : String := s ++ sepStr ++ t

def sepL : List Char := ['|', '|', '|']

/-- Does the character list start with the three-bar separator? -/
def startsSep (l : List Char) : Bool := decide (l.take 3 = ['|', '|', '|'])

/-- Model of JS `String.prototype.split("|||")` on the character list: scan left
to right, cutting at each (leftmost, non-overlapping) occurrence of `sepL`.
(The inner wildcard branch is unreachable: `startsSep` demands three leading
bars; it keeps the recursion structural so that the kernel can evaluate it.) -/
def splitSepL : List Char → List (List Char)
  | [] => [[]]
  | c :: cs =>
    if startsSep (c :: cs) then
      match cs with
      | _ :: _ :: rest => [] :: splitSepL rest
      | _ => [[]]
    else
      match splitSepL cs with
      | [] => [[c]]
      | seg :: rest => (c :: seg) :: rest

/-- `key.split("|||")` from the source, as a list of strings. -/
def splitKey (k : String) : List String := (splitSepL k.data).map (fun l => String.mk l)

/-- JS destructuring `const [s, t] = parts`: a missing element is `undefined`,
which the template literal then renders as the string `"undefined"`. -/
def destr2 (l : List String) : String × String :=
  (l.getD 0 "undefined", l.getD 1 "undefined")

structure BuildState where
  sources : List (String × GNode)
  targets : List (String × GNode)
  byLinkKey : List (String × LinkEntry)
deriving DecidableEq, Repr

def mkSrcNode (s : String) : GNode := { id := "S:" ++ s, name := s, side := "left" }

def mkTgtNode (t : String) : GNode := { id := "T:" ++ t, name := t, side := "right" }

/-- One iteration of `rows.forEach((row, idx) => ...)` in `buildGraph`: skip the
row when either trimmed value is empty, otherwise create the two nodes if absent
and bump the link entry, appending the 1-based reference id. -/
def stepRow (sourceCol targetCol : String) (st : BuildState) (p : Nat × Row) : BuildState :=
  let s := getVal p.2 sourceCol
  let t := getVal p.2 targetCol
  if s = "" ∨ t = "" then st
  else
    { sources := if (lookupKV st.sources s).isSome then st.sources
                 else st.sources ++ [(s, mkSrcNode s)],
      targets := if (lookupKV st.targets t).isSome then st.targets
                 else st.targets ++ [(t, mkTgtNode t)],
      byLinkKey :=
        let e := (lookupKV st.byLinkKey (mkKey s t)).getD { count := 0, refIds := [] }
        setKV st.byLinkKey (mkKey s t)
          { count := e.count + 1, refIds := e.refIds ++ [p.1 + 1] } }

/-- `rows.forEach` with its running 0-based index. -/
def processRows (sourceCol targetCol : String) : BuildState → Nat → List Row → BuildState
  | st, _, [] => st
  | st, i, r :: rs => processRows sourceCol targetCol (stepRow sourceCol targetCol st (i, r)) (i + 1) rs

/-- Turning one `byLinkKey` entry into a link object: split the key back apart
and re-prefix the two halves, exactly as the source's link-construction loop. -/
def linkOfKey (p : String × LinkEntry) : GLink :=
  let parts := splitKey p.1
  { source := "S:" ++ (destr2 parts).1,
    target := "T:" ++ (destr2 parts).2,
    value := p.2.count }

/-- `buildGraph(rows, sourceCol, targetCol)` from the source. -/
def buildGraph (rows : List Row) (sourceCol targetCol : String) : BuildResult :=
  let st := processRows sourceCol targetCol
    { sources := [], targets := [], byLinkKey := [] } 0 rows
  let nodes := st.sources.map (fun p => p.2) ++ st.targets.map (fun p => p.2)
  let links := st.byLinkKey.map linkOfKey
  let m := (links.map (fun l => l.value)).foldr Nat.max 0
  { graph := { nodes := nodes, links := links },
    byLinkKey := st.byLinkKey,
    refCountMax := if m = 0 then 1 else m }

/-- A row is included iff both trimmed values are non-empty (the row-exclusion
policy of `buildGraph`). -/
def includedB (a b : String) (r : Row) : Bool :=
  !(getVal r a == "") && !(getVal r b == "")

/-- The aggregation key produced by an included row. -/
def rowKey (a b : String) (r : Row) : String := mkKey (getVal r a) (getVal r b)

/-- Source-column values of the included rows, in row order (with repetition). -/
def srcVals (a b : String) (rows : List Row) : List String :=
  rows.filterMap (fun r => if includedB a b r then some (getVal r a) else none)

/-- Target-column values of the included rows, in row order (with repetition). -/
def tgtVals (a b : String) (rows : List Row) : List String :=
  rows.filterMap (fun r => if includedB a b r then some (getVal r b) else none)

/-- Aggregation keys of the included rows, in row order (with repetition). -/
def keyVals (a b : String) (rows : List Row) : List String :=
  rows.filterMap (fun r => if includedB a b r then some (rowKey a b r) else none)

/-- `(source value, target value)` pairs of the included rows, in row order. -/
def pairVals (a b : String) (rows : List Row) : List (String × String) :=
  rows.filterMap (fun r => if includedB a b r then some (getVal r a, getVal r b) else none)

/-- First-occurrence deduplication, accumulating into `acc`. -/
def dedupFrom {α : Type} [DecidableEq α] (acc : List α) : List α → List α
  | [] => acc
  | v :: vs => dedupFrom (if v ∈ acc then acc else acc ++ [v]) vs

/-- The distinct elements of `l` in first-encounter order. -/
def firstDedup {α : Type} [DecidableEq α] (l : List α) : List α := dedupFrom [] l

/-- The 1-based positions (offset by the starting index `i`) of the included
rows whose aggregation key is `k`, in row order. -/
def refIdsSpec (a b k : String) : Nat → List Row → List Nat
  | _, [] => []
  | i, r :: rs =>
    (if includedB a b r ∧ rowKey a b r = k then [i + 1] else []) ++ refIdsSpec a b k (i + 1) rs

/-- How a lookup into `byLinkKey` grows over a run of rows. -/
def extendEntry : Option LinkEntry → List Nat → Option LinkEntry
  | none, [] => none
  | none, ids => some { count := ids.length, refIds := ids }
  | some e, ids => some { count := e.count + ids.length, refIds := e.refIds ++ ids }

def initState : BuildState := { sources := [], targets := [], byLinkKey := [] }

/-- The entry stored for key `k` by the builder. -/
def entrySpec (a b k : String) (rows : List Row) : LinkEntry :=
  { count := (refIdsSpec a b k 0 rows).length, refIds := refIdsSpec a b k 0 rows }

/-- The spec's concrete scenario: rows 1-3 included, row 4 excluded (empty B). -/
def demoRows : List Row :=
  [[("A", "x"), ("B", "p")], [("A", "x"), ("B", "p")],
   [("A", "y"), ("B", "p")], [("A", "x"), ("B", "")]]

/-- One row whose value appears in both columns. -/
def bothRows : List Row := [[("A", "x"), ("B", "x")]]

/-- The three data-shape outcomes of `renderSankey`: the "select columns"
placeholder, the "no connections" placeholder, or a rendered graph. -/
inductive RenderResult where
  | placeholderSelect : RenderResult
  | placeholderNoConnections : RenderResult
  | rendered : BuildResult → RenderResult
deriving DecidableEq, Repr

/-- JS truthiness of the destructured `sourceCol`/`targetCol` config values:
`undefined` and the empty string are falsy. -/
def truthyStr : Option String → Bool
  | none => false
  | some s => !(s == "")

/-- The data-dependent control flow of `renderSankey(containerEl, rows, config)`:
missing/empty column selection returns the placeholder before building; a built
graph with no links returns the no-connections placeholder; otherwise the graph
is rendered.  (DOM/SVG drawing is outside the shallow embedding.) -/
def renderSankey (rows : List Row) (sourceCol targetCol : Option String) : RenderResult :=
  if !(truthyStr sourceCol) || !(truthyStr targetCol) then .placeholderSelect
  else
    let r := buildGraph rows (sourceCol.getD "") (targetCol.getD "")
    if r.graph.links = [] then .placeholderNoConnections
    else .rendered r

def stepRowV0 (sourceCol targetCol : String) (st : BuildState) (p : Nat × Row) : BuildState :=
  let s := getVal p.2 sourceCol
  let t := getVal p.2 targetCol
  if s = "" ∨ t = "" then st
  else
    { sources := if (lookupKV st.sources s).isSome then st.sources
                 else st.sources ++ [(s, mkSrcNode s)],
      targets := if (lookupKV st.targets t).isSome then st.targets
                 else st.targets ++ [(t, mkTgtNode t)],
      byLinkKey :=
        let e := (lookupKV st.byLinkKey (mkKey s t)).getD { count := 0, refIds := [] }
        setKV st.byLinkKey (mkKey s t)
          { count := e.count + 1, refIds := e.refIds ++ [p.1 + 1] } }

def processRowsV0 (sourceCol targetCol : String) : BuildState → Nat → List Row → BuildState
  | st, _, [] => st
  | st, i, r :: rs =>
    processRowsV0 sourceCol targetCol (stepRowV0 sourceCol targetCol st (i, r)) (i + 1) rs

def linkOfKeyV0 (p : String × LinkEntry) : GLink :=
  let parts := splitKey p.1
  { source := "S:" ++ (destr2 parts).1,
    target := "T:" ++ (destr2 parts).2,
    value := p.2.count }

def buildGraphV0 (rows : List Row) (sourceCol targetCol : String) : BuildResult :=
  let st := processRowsV0 sourceCol targetCol
    { sources := [], targets := [], byLinkKey := [] } 0 rows
  let nodes := st.sources.map (fun p => p.2) ++ st.targets.map (fun p => p.2)
  let links := st.byLinkKey.map linkOfKeyV0
  let m := (links.map (fun l => l.value)).foldr Nat.max 0
  { graph := { nodes := nodes, links := links },
    byLinkKey := st.byLinkKey,
    refCountMax := if m = 0 then 1 else m }

/-- The trimmed value contains no occurrence of the separator substring. -/
def sepFree (v : String) : Prop := ¬ sepL <:+: v.data

/-- The trimmed value does not end with a bar character. -/
def noBarEnd (v : String) : Prop := v.data.getLast? ≠ some '|'

/-- Benignity of a row's pair of values: no separator occurrence in either, and
the source value does not end in a bar. -/
def goodRow (a b : String) (r : Row) : Prop :=
  sepFree (getVal r a) ∧ noBarEnd (getVal r a) ∧ sepFree (getVal r b)

instance (v : String) : Decidable (sepFree v) := by
  unfold sepFree
  infer_instance

instance (v : String) : Decidable (noBarEnd v) := by
  unfold noBarEnd
  infer_instance

instance (a b : String) (r : Row) : Decidable (goodRow a b r) := by
  unfold goodRow
  infer_instance

structure LNode where
  id : String
  side : String
  y0 : ℚ
  y1 : ℚ
deriving DecidableEq, Repr

instance : Inhabited LNode := ⟨{ id := "", side := "", y0 := 0, y1 := 0 }⟩

/-- `nodePad` from the source (kept in sync with `sankey.nodePadding()`). -/
def nodePad : ℚ := 14

/-- JS `a || b` on an optional number: `undefined` and `0` fall back. -/
def jsOr (v : Option ℚ) (fb : ℚ) : ℚ :=
  match v with
  | some x => if x = 0 then fb else x
  | none => fb

/-- `new Map(graph.nodes.map(n => [n.id, Math.max(8, n.y1 - n.y0)]))`. -/
def heightsOf (nodes : List LNode) : List (String × ℚ) :=
  nodes.map (fun n => (n.id, max 8 (n.y1 - n.y0)))

/-- `heights.get(p.id) || Math.max(8, p.y1 - p.y0)` from the pack loops. -/
def effHeight (heights : List (String × ℚ)) (n : LNode) : ℚ :=
  jsOr (lookupKV heights n.id) (max 8 (n.y1 - n.y0))

def insertByY0 (n : LNode) : List LNode → List LNode
  | [] => [n]
  | m :: ms => if m.y0 ≤ n.y0 then m :: insertByY0 n ms else n :: m :: ms

/-- Stable sort by `y0`, modelling `.sort((a, b) => a.y0 - b.y0)`. -/
def sortByY0 (l : List LNode) : List LNode :=
  l.foldl (fun acc n => insertByY0 n acc) []

structure DragState where
  d : LNode
  peers : List LNode
  heights : List (String × ℚ)
  insertIdx : Option Nat
deriving DecidableEq, Repr

/-- The `start` handler: capture the ordered column siblings and all node
heights. -/
def dragStart (nodes : List LNode) (d : LNode) : DragState :=
  { d := d,
    peers := sortByY0 (nodes.filter (fun n => n.side == d.side && !(n.id == d.id))),
    heights := heightsOf nodes,
    insertIdx := none }

/-- The clamp of the pointer position to the column extent minus the node
height: `Math.max(minY, Math.min(maxY, event.y))` with `minY = 20`,
`maxY = height - 20 - nodeHeight`. -/
def clampY (height nodeHeight eventY : ℚ) : ℚ :=
  max 20 (min (height - 20 - nodeHeight) eventY)

/-- `peers.map(p => (p.y0 + p.y1) / 2)`. -/
def centersOf (peers : List LNode) : List ℚ :=
  peers.map (fun p => (p.y0 + p.y1) / 2)

/-- The `while (insertIdx < centers.length && centers[insertIdx] < newCenter)`
loop: the first index whose center is not below `c`, or the length. -/
def whileIdx (c : ℚ) : List ℚ → Nat
  | [] => 0
  | x :: xs => if x < c then whileIdx c xs + 1 else 0

/-- The Move repack of the siblings: walk them in order, reserving the dragged
node's height plus padding when the walk reaches `insertIdx`. -/
def packPeersAux (heights : List (String × ℚ)) (nodeHeight : ℚ) (insertIdx : Nat) :
    Nat → ℚ → List LNode → List LNode
  | _, _, [] => []
  | i, y, p :: ps =>
    let yCur := if i = insertIdx then y + nodeHeight + nodePad else y
    let h := effHeight heights p
    { p with y0 := yCur, y1 := yCur + h } ::
      packPeersAux heights nodeHeight insertIdx (i + 1) (yCur + h + nodePad) ps

/-- The `drag` (Move) handler. -/
def dragMove (height : ℚ) (st : DragState) (eventY : ℚ) : DragState :=
  let nodeHeight := max 8 (st.d.y1 - st.d.y0)
  let newY0 := clampY height nodeHeight eventY
  let newCenter := newY0 + nodeHeight / 2
  let insertIdx := whileIdx newCenter (centersOf st.peers)
  { d := { st.d with y0 := newY0, y1 := newY0 + nodeHeight },
    peers := packPeersAux st.heights nodeHeight insertIdx 0 20 st.peers,
    heights := st.heights,
    insertIdx := some insertIdx }

/-- The End repack of the whole column, top-down with uniform padding. -/
def packAll (heights : List (String × ℚ)) : ℚ → List LNode → List LNode
  | _, [] => []
  | y, n :: ns =>
    let h := effHeight heights n
    { n with y0 := y, y1 := y + h } :: packAll heights (y + h + nodePad) ns

/-- JS `arr.splice(i, 0, d)`: insert at index `i`, clamped to the length. -/
def jsSplice (l : List LNode) (i : Nat) (d : LNode) : List LNode :=
  l.take i ++ [d] ++ l.drop i

/-- The `end` handler: splice the dragged node into the sibling order at the
last computed insertion index (`?? 0` when no Move fired) and fully repack. -/
def dragEnd (st : DragState) : List LNode :=
  packAll st.heights 20 (jsSplice st.peers (st.insertIdx.getD 0) st.d)

/-- A whole Start → Move* → End gesture. -/
def runGesture (height : ℚ) (nodes : List LNode) (d : LNode) (moves : List ℚ) : List LNode :=
  dragEnd (moves.foldl (dragMove height) (dragStart nodes d))

/-- Nodes used by the drag witnesses. -/
def dragDemoNodes : List LNode :=
  [{ id := "a", side := "left", y0 := 20, y1 := 120 },
   { id := "b", side := "left", y0 := 134, y1 := 234 },
   { id := "d", side := "left", y0 := 248, y1 := 348 }]

def demoDragState : DragState :=
  dragStart dragDemoNodes { id := "d", side := "left", y0 := 248, y1 := 348 }

/-! ## Theorems: builder characterization, split algebra, drag packing, and the claims -/

@[simp] theorem lookupKV_nil {β : Type} (k : String) : lookupKV ([] : List (String × β)) k = none := rfl

theorem lookupKV_cons {β : Type} (p : String × β) (m : List (String × β)) (k : String) :
    lookupKV (p :: m) k = if p.1 = k then some p.2 else lookupKV m k := by
  simp only [lookupKV, List.find?]
  by_cases h : p.1 = k
  · simp [h]
  · simp [h, beq_eq_false_iff_ne.mpr h]

theorem lookupKV_append {β : Type} (m₁ m₂ : List (String × β)) (k : String) :
    lookupKV (m₁ ++ m₂) k = ((lookupKV m₁ k).or (lookupKV m₂ k)) := by
  induction m₁ with
  | nil => simp
  | cons p m ih =>
    rw [List.cons_append, lookupKV_cons, lookupKV_cons]
    by_cases h : p.1 = k <;> simp [h, ih]

theorem lookupKV_isSome_iff {β : Type} (m : List (String × β)) (k : String) :
    (lookupKV m k).isSome ↔ k ∈ m.map Prod.fst := by
  induction m with
  | nil => simp
  | cons p m ih =>
    rw [lookupKV_cons]
    by_cases h : p.1 = k
    · simp [h]
    · simp only [if_neg h, List.map_cons, List.mem_cons, ih]
      constructor
      · exact Or.inr
      · rintro (h1 | h1)
        · exact absurd h1.symm h
        · exact h1

theorem lookupKV_eq_some_mem {β : Type} {m : List (String × β)} {k : String} {v : β}
    (h : lookupKV m k = some v) : (k, v) ∈ m := by
  induction m with
  | nil => simp [lookupKV] at h
  | cons p m ih =>
    rw [lookupKV_cons] at h
    by_cases hk : p.1 = k
    · simp only [if_pos hk, Option.some.injEq] at h
      exact List.mem_cons.mpr (Or.inl (Prod.ext hk h).symm)
    · simp only [if_neg hk] at h
      exact List.mem_cons_of_mem _ (ih h)

theorem lookupKV_mapRep {β : Type} (m : List (String × β)) (k k' : String) (v : β) :
    lookupKV (m.map (fun p => if p.1 = k then (k, v) else p)) k' =
      if k' = k then (lookupKV m k).map (fun _ => v) else lookupKV m k' := by
  induction m with
  | nil => by_cases h : k' = k <;> simp [h]
  | cons p m ih =>
    rw [List.map_cons]
    by_cases hp : p.1 = k
    · rw [if_pos hp]
      by_cases hk : k' = k
      · subst hk
        rw [if_pos rfl, lookupKV_cons, if_pos (show ((k', v) : String × β).1 = k' from rfl),
          lookupKV_cons, if_pos hp]
        simp
      · rw [if_neg hk, lookupKV_cons,
          if_neg (show ¬(((k, v) : String × β).1 = k') from fun hh => hk hh.symm),
          lookupKV_cons, if_neg (show ¬(p.1 = k') from fun hh => hk (hh.symm.trans hp)),
          ih, if_neg hk]
    · rw [if_neg hp]
      by_cases hk : k' = k
      · subst hk
        rw [if_pos rfl, lookupKV_cons, if_neg hp, ih, if_pos rfl, lookupKV_cons, if_neg hp]
      · rw [if_neg hk, lookupKV_cons, lookupKV_cons, ih, if_neg hk]

theorem lookupKV_setKV_eq {β : Type} (m : List (String × β)) (k : String) (v : β) :
    lookupKV (setKV m k v) k = some v := by
  unfold setKV
  by_cases h : (lookupKV m k).isSome
  · rw [if_pos h, lookupKV_mapRep, if_pos rfl]
    obtain ⟨v', hv⟩ := Option.isSome_iff_exists.mp h
    simp [hv]
  · rw [if_neg h, lookupKV_append]
    simp only [Option.not_isSome_iff_eq_none] at h
    simp [h, lookupKV_cons]

theorem lookupKV_setKV_ne {β : Type} (m : List (String × β)) (k : String) (v : β)
    (k' : String) (hne : k' ≠ k) : lookupKV (setKV m k v) k' = lookupKV m k' := by
  unfold setKV
  by_cases h : (lookupKV m k).isSome
  · rw [if_pos h, lookupKV_mapRep, if_neg hne]
  · rw [if_neg h, lookupKV_append, lookupKV_cons]
    simp only [if_neg (fun hkk : k = k' => hne hkk.symm), lookupKV_nil, Option.or_none]

theorem keys_mapRep {β : Type} (m : List (String × β)) (k : String) (v : β) :
    (m.map (fun p => if p.1 = k then (k, v) else p)).map Prod.fst = m.map Prod.fst := by
  induction m with
  | nil => rfl
  | cons p m ih =>
    by_cases hp : p.1 = k <;> simp [hp, ih]

theorem keys_setKV {β : Type} (m : List (String × β)) (k : String) (v : β) :
    (setKV m k v).map Prod.fst =
      if (lookupKV m k).isSome then m.map Prod.fst else m.map Prod.fst ++ [k] := by
  unfold setKV
  by_cases h : (lookupKV m k).isSome
  · rw [if_pos h, if_pos h, keys_mapRep]
  · rw [if_neg h, if_neg h]
    simp

theorem keys_setKV_nodup {β : Type} (m : List (String × β)) (k : String) (v : β)
    (hnd : (m.map Prod.fst).Nodup) : ((setKV m k v).map Prod.fst).Nodup := by
  rw [keys_setKV]
  by_cases h : (lookupKV m k).isSome
  · simpa [h]
  · simp only [h, if_false]
    rw [lookupKV_isSome_iff] at h
    exact List.Nodup.append hnd (List.nodup_singleton k)
      (by simpa [List.disjoint_singleton] using h)

theorem mem_dedupFrom {α : Type} [DecidableEq α] (acc : List α) (l : List α) (x : α) :
    x ∈ dedupFrom acc l ↔ x ∈ acc ∨ x ∈ l := by
  induction l generalizing acc with
  | nil => simp [dedupFrom]
  | cons v vs ih =>
    rw [dedupFrom, ih]
    by_cases hv : v ∈ acc
    · simp only [hv, if_true, List.mem_cons]
      constructor
      · rintro (h | h)
        · exact Or.inl h
        · exact Or.inr (Or.inr h)
      · rintro (h | rfl | h)
        · exact Or.inl h
        · exact Or.inl hv
        · exact Or.inr h
    · simp only [hv, if_false, List.mem_append, List.mem_singleton, List.mem_cons]
      tauto

theorem nodup_dedupFrom {α : Type} [DecidableEq α] (acc : List α) (l : List α)
    (h : acc.Nodup) : (dedupFrom acc l).Nodup := by
  induction l generalizing acc with
  | nil => exact h
  | cons v vs ih =>
    rw [dedupFrom]
    by_cases hv : v ∈ acc
    · simpa [hv] using ih acc h
    · simp only [hv, if_false]
      exact ih _ (List.Nodup.append h (List.nodup_singleton v)
        (by simpa [List.disjoint_singleton] using hv))

theorem nodup_firstDedup {α : Type} [DecidableEq α] (l : List α) : (firstDedup l).Nodup :=
  nodup_dedupFrom [] l List.nodup_nil

theorem mem_firstDedup {α : Type} [DecidableEq α] (l : List α) (x : α) :
    x ∈ firstDedup l ↔ x ∈ l := by
  rw [firstDedup, mem_dedupFrom]
  simp

theorem firstDedup_eq_nil_iff {α : Type} [DecidableEq α] (l : List α) :
    firstDedup l = [] ↔ l = [] := by
  constructor
  · intro h
    cases l with
    | nil => rfl
    | cons v vs =>
      exfalso
      have : v ∈ firstDedup (v :: vs) := (mem_firstDedup _ _).2 (List.mem_cons_self _ _)
      rw [h] at this
      exact List.not_mem_nil _ this
  · rintro rfl
    rfl

theorem includedB_true_iff (a b : String) (r : Row) :
    includedB a b r = true ↔ (getVal r a ≠ "" ∧ getVal r b ≠ "") := by
  simp [includedB]

theorem includedB_false_iff (a b : String) (r : Row) :
    includedB a b r = false ↔ (getVal r a = "" ∨ getVal r b = "") := by
  rw [← Bool.not_eq_true, includedB_true_iff]
  tauto

theorem stepRow_byLinkKey (a b : String) (st : BuildState) (i : Nat) (r : Row) :
    (stepRow a b st (i, r)).byLinkKey =
      if includedB a b r then
        setKV st.byLinkKey (rowKey a b r)
          { count := ((lookupKV st.byLinkKey (rowKey a b r)).getD
              { count := 0, refIds := [] }).count + 1,
            refIds := ((lookupKV st.byLinkKey (rowKey a b r)).getD
              { count := 0, refIds := [] }).refIds ++ [i + 1] }
      else st.byLinkKey := by
  simp only [stepRow, rowKey]
  by_cases h : getVal r a = "" ∨ getVal r b = ""
  · rw [if_pos h, if_neg (by simp [includedB_false_iff, h])]
  · rw [if_neg h, if_pos ((includedB_true_iff a b r).mpr (not_or.mp h))]

theorem stepRow_sources (a b : String) (st : BuildState) (i : Nat) (r : Row) :
    (stepRow a b st (i, r)).sources =
      if includedB a b r then
        (if (lookupKV st.sources (getVal r a)).isSome then st.sources
         else st.sources ++ [(getVal r a, mkSrcNode (getVal r a))])
      else st.sources := by
  simp only [stepRow]
  by_cases h : getVal r a = "" ∨ getVal r b = ""
  · rw [if_pos h, if_neg (by simp [includedB_false_iff, h])]
  · rw [if_neg h, if_pos ((includedB_true_iff a b r).mpr (not_or.mp h))]

theorem stepRow_targets (a b : String) (st : BuildState) (i : Nat) (r : Row) :
    (stepRow a b st (i, r)).targets =
      if includedB a b r then
        (if (lookupKV st.targets (getVal r b)).isSome then st.targets
         else st.targets ++ [(getVal r b, mkTgtNode (getVal r b))])
      else st.targets := by
  simp only [stepRow]
  by_cases h : getVal r a = "" ∨ getVal r b = ""
  · rw [if_pos h, if_neg (by simp [includedB_false_iff, h])]
  · rw [if_neg h, if_pos ((includedB_true_iff a b r).mpr (not_or.mp h))]

theorem stepRow_excluded (a b : String) (st : BuildState) (i : Nat) (r : Row)
    (h : includedB a b r = false) : stepRow a b st (i, r) = st := by
  simp only [stepRow]
  rw [if_pos ((includedB_false_iff a b r).mp h)]

theorem processRows_cons (a b : String) (st : BuildState) (i : Nat) (r : Row) (rs : List Row) :
    processRows a b st i (r :: rs) = processRows a b (stepRow a b st (i, r)) (i + 1) rs := rfl

/-- Value lists of a row-cons, for the included case. -/
theorem srcVals_cons_included (a b : String) (r : Row) (rs : List Row)
    (h : includedB a b r = true) : srcVals a b (r :: rs) = getVal r a :: srcVals a b rs := by
  simp [srcVals, List.filterMap_cons, h]

theorem srcVals_cons_excluded (a b : String) (r : Row) (rs : List Row)
    (h : includedB a b r = false) : srcVals a b (r :: rs) = srcVals a b rs := by
  simp [srcVals, List.filterMap_cons, h]

theorem tgtVals_cons_included (a b : String) (r : Row) (rs : List Row)
    (h : includedB a b r = true) : tgtVals a b (r :: rs) = getVal r b :: tgtVals a b rs := by
  simp [tgtVals, List.filterMap_cons, h]

theorem tgtVals_cons_excluded (a b : String) (r : Row) (rs : List Row)
    (h : includedB a b r = false) : tgtVals a b (r :: rs) = tgtVals a b rs := by
  simp [tgtVals, List.filterMap_cons, h]

theorem keyVals_cons_included (a b : String) (r : Row) (rs : List Row)
    (h : includedB a b r = true) : keyVals a b (r :: rs) = rowKey a b r :: keyVals a b rs := by
  simp [keyVals, List.filterMap_cons, h]

theorem keyVals_cons_excluded (a b : String) (r : Row) (rs : List Row)
    (h : includedB a b r = false) : keyVals a b (r :: rs) = keyVals a b rs := by
  simp [keyVals, List.filterMap_cons, h]

theorem extendEntry_none_nil : extendEntry none [] = none := rfl

theorem extendEntry_none_cons (x : Nat) (xs : List Nat) :
    extendEntry none (x :: xs) = some { count := (x :: xs).length, refIds := x :: xs } := rfl

theorem extendEntry_some (e : LinkEntry) (ids : List Nat) :
    extendEntry (some e) ids =
      some { count := e.count + ids.length, refIds := e.refIds ++ ids } := by
  cases ids <;> rfl

theorem refIdsSpec_cons (a b k : String) (i : Nat) (r : Row) (rs : List Row) :
    refIdsSpec a b k i (r :: rs) =
      (if includedB a b r ∧ rowKey a b r = k then [i + 1] else []) ++
        refIdsSpec a b k (i + 1) rs := rfl

/-- Pointwise characterization of the link map built by `processRows`. -/
theorem lookup_byLinkKey_processRows (a b k : String) (rows : List Row) :
    ∀ (st : BuildState) (i : Nat),
      lookupKV (processRows a b st i rows).byLinkKey k =
        extendEntry (lookupKV st.byLinkKey k) (refIdsSpec a b k i rows) := by
  induction rows with
  | nil =>
    intro st i
    show lookupKV st.byLinkKey k = extendEntry (lookupKV st.byLinkKey k) []
    cases h : lookupKV st.byLinkKey k
    · rfl
    · rw [extendEntry_some]
      simp
  | cons r rs ih =>
    intro st i
    rw [processRows_cons, ih, refIdsSpec_cons]
    cases hin : includedB a b r with
    | false =>
      rw [stepRow_excluded a b st i r hin]
      rw [if_neg (fun hc => absurd hc.1 Bool.false_ne_true)]
      rw [List.nil_append]
    | true =>
      by_cases hk : rowKey a b r = k
      · subst hk
        rw [if_pos ⟨rfl, rfl⟩, stepRow_byLinkKey, if_pos hin, lookupKV_setKV_eq]
        cases hold : lookupKV st.byLinkKey (rowKey a b r) with
        | none =>
          simp only [hold, Option.getD_none, extendEntry_some, extendEntry_none_nil,
            List.nil_append, List.singleton_append, extendEntry_none_cons, List.length_cons,
            Option.some.injEq, LinkEntry.mk.injEq]
          exact ⟨by omega, trivial⟩
        | some e =>
          simp only [hold, Option.getD_some, extendEntry_some, List.singleton_append,
            List.length_cons, Option.some.injEq, LinkEntry.mk.injEq, List.append_assoc]
          exact ⟨by omega, trivial⟩
      · rw [if_neg (fun hc => hk hc.2), List.nil_append, stepRow_byLinkKey, if_pos hin,
          lookupKV_setKV_ne _ _ _ _ (fun h => hk h.symm)]

/-- Key order of the link map built by `processRows`. -/
theorem keys_byLinkKey_processRows (a b : String) (rows : List Row) :
    ∀ (st : BuildState) (i : Nat),
      (processRows a b st i rows).byLinkKey.map Prod.fst =
        dedupFrom (st.byLinkKey.map Prod.fst) (keyVals a b rows) := by
  induction rows with
  | nil => intro st i; rfl
  | cons r rs ih =>
    intro st i
    rw [processRows_cons, ih]
    cases hin : includedB a b r with
    | false =>
      rw [stepRow_excluded a b st i r hin, keyVals_cons_excluded a b r rs hin]
    | true =>
      rw [keyVals_cons_included a b r rs hin, dedupFrom]
      have hkeys : (stepRow a b st (i, r)).byLinkKey.map Prod.fst =
          (if rowKey a b r ∈ st.byLinkKey.map Prod.fst then st.byLinkKey.map Prod.fst
           else st.byLinkKey.map Prod.fst ++ [rowKey a b r]) := by
        rw [stepRow_byLinkKey, if_pos hin, keys_setKV]
        by_cases h : (lookupKV st.byLinkKey (rowKey a b r)).isSome
        · rw [if_pos h, if_pos ((lookupKV_isSome_iff _ _).mp h)]
        · rw [if_neg h, if_neg (fun hm => h ((lookupKV_isSome_iff _ _).mpr hm))]
      rw [hkeys]

/-- Pointwise characterization of the source-node map. -/
theorem lookup_sources_processRows (a b v : String) (rows : List Row) :
    ∀ (st : BuildState) (i : Nat),
      lookupKV (processRows a b st i rows).sources v =
        (lookupKV st.sources v).or
          (if v ∈ srcVals a b rows then some (mkSrcNode v) else none) := by
  induction rows with
  | nil =>
    intro st i
    show lookupKV st.sources v = _
    simp [srcVals]
  | cons r rs ih =>
    intro st i
    rw [processRows_cons, ih]
    cases hin : includedB a b r with
    | false =>
      rw [stepRow_excluded a b st i r hin, srcVals_cons_excluded a b r rs hin]
    | true =>
      rw [srcVals_cons_included a b r rs hin, stepRow_sources, if_pos hin]
      by_cases hv : v = getVal r a
      · subst hv
        by_cases h : (lookupKV st.sources (getVal r a)).isSome
        · rw [if_pos h]
          obtain ⟨x, hx⟩ := Option.isSome_iff_exists.mp h
          simp [hx]
        · rw [if_neg h]
          rw [Option.not_isSome_iff_eq_none] at h
          rw [lookupKV_append]
          simp [h, lookupKV_cons]
      · have hmem : (v ∈ getVal r a :: srcVals a b rs) ↔ v ∈ srcVals a b rs := by
          simp [hv]
        by_cases h : (lookupKV st.sources (getVal r a)).isSome
        · rw [if_pos h]
          simp only [hmem]
        · rw [if_neg h, lookupKV_append, lookupKV_cons]
          rw [if_neg (fun hc : getVal r a = v => hv hc.symm)]
          simp only [hmem, lookupKV_nil, Option.or_none]

/-- Key order of the source-node map. -/
theorem keys_sources_processRows (a b : String) (rows : List Row) :
    ∀ (st : BuildState) (i : Nat),
      (processRows a b st i rows).sources.map Prod.fst =
        dedupFrom (st.sources.map Prod.fst) (srcVals a b rows) := by
  induction rows with
  | nil => intro st i; rfl
  | cons r rs ih =>
    intro st i
    rw [processRows_cons, ih]
    cases hin : includedB a b r with
    | false =>
      rw [stepRow_excluded a b st i r hin, srcVals_cons_excluded a b r rs hin]
    | true =>
      rw [srcVals_cons_included a b r rs hin, dedupFrom]
      have hkeys : (stepRow a b st (i, r)).sources.map Prod.fst =
          (if getVal r a ∈ st.sources.map Prod.fst then st.sources.map Prod.fst
           else st.sources.map Prod.fst ++ [getVal r a]) := by
        rw [stepRow_sources, if_pos hin]
        by_cases h : (lookupKV st.sources (getVal r a)).isSome
        · rw [if_pos h, if_pos ((lookupKV_isSome_iff _ _).mp h)]
        · rw [if_neg h, if_neg (fun hm => h ((lookupKV_isSome_iff _ _).mpr hm))]
          simp
      rw [hkeys]

/-- Pointwise characterization of the target-node map. -/
theorem lookup_targets_processRows (a b v : String) (rows : List Row) :
    ∀ (st : BuildState) (i : Nat),
      lookupKV (processRows a b st i rows).targets v =
        (lookupKV st.targets v).or
          (if v ∈ tgtVals a b rows then some (mkTgtNode v) else none) := by
  induction rows with
  | nil =>
    intro st i
    show lookupKV st.targets v = _
    simp [tgtVals]
  | cons r rs ih =>
    intro st i
    rw [processRows_cons, ih]
    cases hin : includedB a b r with
    | false =>
      rw [stepRow_excluded a b st i r hin, tgtVals_cons_excluded a b r rs hin]
    | true =>
      rw [tgtVals_cons_included a b r rs hin, stepRow_targets, if_pos hin]
      by_cases hv : v = getVal r b
      · subst hv
        by_cases h : (lookupKV st.targets (getVal r b)).isSome
        · rw [if_pos h]
          obtain ⟨x, hx⟩ := Option.isSome_iff_exists.mp h
          simp [hx]
        · rw [if_neg h]
          rw [Option.not_isSome_iff_eq_none] at h
          rw [lookupKV_append]
          simp [h, lookupKV_cons]
      · have hmem : (v ∈ getVal r b :: tgtVals a b rs) ↔ v ∈ tgtVals a b rs := by
          simp [hv]
        by_cases h : (lookupKV st.targets (getVal r b)).isSome
        · rw [if_pos h]
          simp only [hmem]
        · rw [if_neg h, lookupKV_append, lookupKV_cons]
          rw [if_neg (fun hc : getVal r b = v => hv hc.symm)]
          simp only [hmem, lookupKV_nil, Option.or_none]

/-- Key order of the target-node map. -/
theorem keys_targets_processRows (a b : String) (rows : List Row) :
    ∀ (st : BuildState) (i : Nat),
      (processRows a b st i rows).targets.map Prod.fst =
        dedupFrom (st.targets.map Prod.fst) (tgtVals a b rows) := by
  induction rows with
  | nil => intro st i; rfl
  | cons r rs ih =>
    intro st i
    rw [processRows_cons, ih]
    cases hin : includedB a b r with
    | false =>
      rw [stepRow_excluded a b st i r hin, tgtVals_cons_excluded a b r rs hin]
    | true =>
      rw [tgtVals_cons_included a b r rs hin, dedupFrom]
      have hkeys : (stepRow a b st (i, r)).targets.map Prod.fst =
          (if getVal r b ∈ st.targets.map Prod.fst then st.targets.map Prod.fst
           else st.targets.map Prod.fst ++ [getVal r b]) := by
        rw [stepRow_targets, if_pos hin]
        by_cases h : (lookupKV st.targets (getVal r b)).isSome
        · rw [if_pos h, if_pos ((lookupKV_isSome_iff _ _).mp h)]
        · rw [if_neg h, if_neg (fun hm => h ((lookupKV_isSome_iff _ _).mpr hm))]
          simp
      rw [hkeys]

/-- An association list is determined by its key order and its lookups. -/
theorem assoc_eq_pairs {β : Type} :
    ∀ (m : List (String × β)) (ks : List String) (f : String → β),
      m.map Prod.fst = ks → ks.Nodup → (∀ k ∈ ks, lookupKV m k = some (f k)) →
      m = ks.map (fun k => (k, f k)) := by
  intro m
  induction m with
  | nil =>
    intro ks f hmap _ _
    rw [← hmap]
    rfl
  | cons p m ih =>
    intro ks f hmap hnd hlk
    cases ks with
    | nil => simp at hmap
    | cons k₀ ks' =>
      rw [List.map_cons] at hmap
      obtain ⟨hk₀, hmap'⟩ := List.cons.inj hmap
      have hv : p.2 = f k₀ := by
        have := hlk k₀ (List.mem_cons_self _ _)
        rw [lookupKV_cons, if_pos hk₀] at this
        exact Option.some.inj this
      have hrest : ∀ k ∈ ks', lookupKV m k = some (f k) := by
        intro k hk
        have hne : ¬(p.1 = k) := by
          rw [hk₀]
          rintro rfl
          exact (List.nodup_cons.mp hnd).1 hk
        have := hlk k (List.mem_cons_of_mem _ hk)
        rwa [lookupKV_cons, if_neg hne] at this
      rw [List.map_cons]
      rw [ih ks' f hmap' (List.nodup_cons.mp hnd).2 hrest]
      congr 1
      exact Prod.ext hk₀ hv

/-- Membership in `keyVals` forces a non-empty reference list. -/
theorem refIdsSpec_ne_nil (a b k : String) :
    ∀ (rows : List Row) (i : Nat), k ∈ keyVals a b rows → refIdsSpec a b k i rows ≠ [] := by
  intro rows
  induction rows with
  | nil => intro i h; simp [keyVals] at h
  | cons r rs ih =>
    intro i hmem
    rw [refIdsSpec_cons]
    cases hin : includedB a b r with
    | false =>
      rw [keyVals_cons_excluded a b r rs hin] at hmem
      rw [if_neg (fun hc => absurd hc.1 Bool.false_ne_true)]
      simpa using ih (i + 1) hmem
    | true =>
      rw [keyVals_cons_included a b r rs hin] at hmem
      rcases List.mem_cons.mp hmem with h | h
      · rw [if_pos ⟨rfl, h.symm⟩]
        simp
      · intro hc
        rcases List.append_eq_nil.mp hc with ⟨_, h2⟩
        exact ih (i + 1) h h2

theorem buildGraph_byLinkKey_def (rows : List Row) (a b : String) :
    (buildGraph rows a b).byLinkKey = (processRows a b initState 0 rows).byLinkKey := rfl

theorem buildGraph_nodes_def (rows : List Row) (a b : String) :
    (buildGraph rows a b).graph.nodes =
      (processRows a b initState 0 rows).sources.map Prod.snd ++
        (processRows a b initState 0 rows).targets.map Prod.snd := rfl

theorem buildGraph_links_def (rows : List Row) (a b : String) :
    (buildGraph rows a b).graph.links =
      (processRows a b initState 0 rows).byLinkKey.map linkOfKey := rfl

/-- Full characterization of the builder's link map: the distinct keys in
first-encounter order, each paired with its reference list. -/
theorem byLinkKey_buildGraph (rows : List Row) (a b : String) :
    (buildGraph rows a b).byLinkKey =
      (firstDedup (keyVals a b rows)).map (fun k => (k, entrySpec a b k rows)) := by
  rw [buildGraph_byLinkKey_def]
  apply assoc_eq_pairs
  · rw [keys_byLinkKey_processRows]
    rfl
  · exact nodup_firstDedup _
  · intro k hk
    rw [lookup_byLinkKey_processRows]
    show extendEntry none (refIdsSpec a b k 0 rows) = _
    have hne := refIdsSpec_ne_nil a b k rows 0 ((mem_firstDedup _ _).mp hk)
    cases hspec : refIdsSpec a b k 0 rows with
    | nil => exact absurd hspec hne
    | cons x xs =>
      rw [extendEntry_none_cons]
      unfold entrySpec
      rw [hspec]

/-- Full characterization of the builder's source-node map. -/
theorem sources_buildGraph (rows : List Row) (a b : String) :
    (processRows a b initState 0 rows).sources =
      (firstDedup (srcVals a b rows)).map (fun v => (v, mkSrcNode v)) := by
  apply assoc_eq_pairs
  · rw [keys_sources_processRows]
    rfl
  · exact nodup_firstDedup _
  · intro v hv
    rw [lookup_sources_processRows]
    show Option.or none _ = _
    rw [if_pos ((mem_firstDedup _ _).mp hv)]
    rfl

/-- Full characterization of the builder's target-node map. -/
theorem targets_buildGraph (rows : List Row) (a b : String) :
    (processRows a b initState 0 rows).targets =
      (firstDedup (tgtVals a b rows)).map (fun v => (v, mkTgtNode v)) := by
  apply assoc_eq_pairs
  · rw [keys_targets_processRows]
    rfl
  · exact nodup_firstDedup _
  · intro v hv
    rw [lookup_targets_processRows]
    show Option.or none _ = _
    rw [if_pos ((mem_firstDedup _ _).mp hv)]
    rfl

/-- The node list: distinct source values in first-encounter order, then
distinct target values in first-encounter order. -/
theorem nodes_buildGraph (rows : List Row) (a b : String) :
    (buildGraph rows a b).graph.nodes =
      (firstDedup (srcVals a b rows)).map mkSrcNode ++
        (firstDedup (tgtVals a b rows)).map mkTgtNode := by
  rw [buildGraph_nodes_def, sources_buildGraph, targets_buildGraph,
    List.map_map, List.map_map]
  rfl

/-- The link list: one link per distinct key, in first-encounter order. -/
theorem links_buildGraph (rows : List Row) (a b : String) :
    (buildGraph rows a b).graph.links =
      (firstDedup (keyVals a b rows)).map
        (fun k => linkOfKey (k, entrySpec a b k rows)) := by
  rw [buildGraph_links_def, ← buildGraph_byLinkKey_def, byLinkKey_buildGraph, List.map_map]
  rfl

theorem mem_refIdsSpec (a b k : String) :
    ∀ (rows : List Row) (i : Nat) (x : Nat),
      x ∈ refIdsSpec a b k i rows ↔
        ∃ j, j < rows.length ∧ x = i + j + 1 ∧
          includedB a b (rows.getD j default) = true ∧
          rowKey a b (rows.getD j default) = k := by
  intro rows
  induction rows with
  | nil =>
    intro i x
    simp [refIdsSpec]
  | cons r rs ih =>
    intro i x
    rw [refIdsSpec_cons]
    by_cases hg : includedB a b r ∧ rowKey a b r = k
    · rw [if_pos hg, List.singleton_append, List.mem_cons, ih]
      constructor
      · rintro (rfl | ⟨j, hj, hx, hinc, hkey⟩)
        · exact ⟨0, by simp, by omega,
            by simpa [List.getD_cons_zero] using hg.1,
            by simpa [List.getD_cons_zero] using hg.2⟩
        · exact ⟨j + 1, by simpa using hj, by omega,
            by simpa [List.getD_cons_succ] using hinc,
            by simpa [List.getD_cons_succ] using hkey⟩
      · rintro ⟨j, hj, hx, hinc, hkey⟩
        cases j with
        | zero => left; omega
        | succ j' =>
          right
          exact ⟨j', by simpa using hj, by omega,
            by simpa [List.getD_cons_succ] using hinc,
            by simpa [List.getD_cons_succ] using hkey⟩
    · rw [if_neg hg, List.nil_append, ih]
      constructor
      · rintro ⟨j, hj, hx, hinc, hkey⟩
        exact ⟨j + 1, by simpa using hj, by omega,
          by simpa [List.getD_cons_succ] using hinc,
          by simpa [List.getD_cons_succ] using hkey⟩
      · rintro ⟨j, hj, hx, hinc, hkey⟩
        cases j with
        | zero =>
          exact absurd ⟨by simpa [List.getD_cons_zero] using hinc,
            by simpa [List.getD_cons_zero] using hkey⟩ hg
        | succ j' =>
          exact ⟨j', by simpa using hj, by omega,
            by simpa [List.getD_cons_succ] using hinc,
            by simpa [List.getD_cons_succ] using hkey⟩

theorem refIdsSpec_lt (a b k : String) (rows : List Row) (i : Nat) (x : Nat)
    (hx : x ∈ refIdsSpec a b k i rows) : i < x := by
  obtain ⟨j, _, hxe, _, _⟩ := (mem_refIdsSpec a b k rows i x).mp hx
  omega

theorem refIdsSpec_sorted (a b k : String) :
    ∀ (rows : List Row) (i : Nat), (refIdsSpec a b k i rows).Sorted (· < ·) := by
  intro rows
  induction rows with
  | nil => intro i; simp [refIdsSpec]
  | cons r rs ih =>
    intro i
    rw [refIdsSpec_cons]
    by_cases hg : includedB a b r ∧ rowKey a b r = k
    · rw [if_pos hg, List.singleton_append, List.sorted_cons]
      exact ⟨fun y hy => refIdsSpec_lt a b k rs (i + 1) y hy, ih (i + 1)⟩
    · rw [if_neg hg, List.nil_append]
      exact ih (i + 1)

theorem string_data_append (s t : String) : (s ++ t).data = s.data ++ t.data := by
  cases s
  cases t
  rfl

theorem string_data_inj {s t : String} (h : s.data = t.data) : s = t := by
  cases s
  cases t
  exact congrArg String.mk h

theorem sPrefix_inj {v w : String} (h : "S:" ++ v = "S:" ++ w) : v = w := by
  have hd := congrArg String.data h
  rw [string_data_append, string_data_append] at hd
  exact string_data_inj (List.append_cancel_left hd)

theorem tPrefix_inj {v w : String} (h : "T:" ++ v = "T:" ++ w) : v = w := by
  have hd := congrArg String.data h
  rw [string_data_append, string_data_append] at hd
  exact string_data_inj (List.append_cancel_left hd)

theorem sPrefix_ne_tPrefix (v w : String) : "S:" ++ v ≠ "T:" ++ w := by
  intro h
  have hd := congrArg String.data h
  rw [string_data_append, string_data_append] at hd
  have h1 : "S:".data = ['S', ':'] := rfl
  have h2 : "T:".data = ['T', ':'] := rfl
  rw [h1, h2] at hd
  simp at hd

theorem srcVals_eq_nil_iff (a b : String) (rows : List Row) :
    srcVals a b rows = [] ↔ ∀ r ∈ rows, includedB a b r = false := by
  rw [srcVals, List.filterMap_eq_nil_iff]
  constructor
  · intro h r hr
    have := h r hr
    by_cases hin : includedB a b r
    · rw [if_pos hin] at this
      exact absurd this (by simp)
    · simpa using hin
  · intro h r hr
    rw [if_neg (by rw [h r hr]; simp)]

theorem tgtVals_eq_nil_iff (a b : String) (rows : List Row) :
    tgtVals a b rows = [] ↔ ∀ r ∈ rows, includedB a b r = false := by
  rw [tgtVals, List.filterMap_eq_nil_iff]
  constructor
  · intro h r hr
    have := h r hr
    by_cases hin : includedB a b r
    · rw [if_pos hin] at this
      exact absurd this (by simp)
    · simpa using hin
  · intro h r hr
    rw [if_neg (by rw [h r hr]; simp)]

theorem keyVals_eq_nil_iff (a b : String) (rows : List Row) :
    keyVals a b rows = [] ↔ ∀ r ∈ rows, includedB a b r = false := by
  rw [keyVals, List.filterMap_eq_nil_iff]
  constructor
  · intro h r hr
    have := h r hr
    by_cases hin : includedB a b r
    · rw [if_pos hin] at this
      exact absurd this (by simp)
    · simpa using hin
  · intro h r hr
    rw [if_neg (by rw [h r hr]; simp)]

theorem links_eq_nil_iff (rows : List Row) (a b : String) :
    (buildGraph rows a b).graph.links = [] ↔ ∀ r ∈ rows, includedB a b r = false := by
  rw [links_buildGraph, List.map_eq_nil_iff, firstDedup_eq_nil_iff, keyVals_eq_nil_iff]

theorem nodes_eq_nil_iff (rows : List Row) (a b : String) :
    (buildGraph rows a b).graph.nodes = [] ↔ ∀ r ∈ rows, includedB a b r = false := by
  rw [nodes_buildGraph, List.append_eq_nil, List.map_eq_nil_iff, List.map_eq_nil_iff,
    firstDedup_eq_nil_iff, firstDedup_eq_nil_iff, srcVals_eq_nil_iff, tgtVals_eq_nil_iff]
  tauto

/-- C1: Row-exclusion correctness.  A row whose trimmed source or target value
is empty contributes nothing to the built graph: processing it leaves the whole
build state unchanged (no node, no link created or incremented), and its 1-based
index never appears in any link's reference list. -/
theorem buildGraph_row_exclusion (rows : List Row) (a b : String) (i : Nat)
    (hi : i < rows.length)
    (hexc : getVal (rows.getD i default) a = "" ∨ getVal (rows.getD i default) b = "") :
    (∀ (st : BuildState) (j : Nat), stepRow a b st (j, rows.getD i default) = st) ∧
    (∀ (k : String) (e : LinkEntry), (k, e) ∈ (buildGraph rows a b).byLinkKey →
      (i + 1) ∉ e.refIds) := by
  have hfalse : includedB a b (rows.getD i default) = false :=
    (includedB_false_iff a b _).mpr hexc
  refine ⟨fun st j => stepRow_excluded a b st j _ hfalse, ?_⟩
  intro k e hmem hin
  rw [byLinkKey_buildGraph] at hmem
  simp only [List.mem_map, Prod.mk.injEq] at hmem
  obtain ⟨k', hk', rfl, rfl⟩ := hmem
  have hin' : (i + 1) ∈ refIdsSpec a b k' 0 rows := hin
  obtain ⟨j, hj, hx, hincl, hkey⟩ := (mem_refIdsSpec a b k' rows 0 (i + 1)).mp hin'
  have hji : j = i := by omega
  subst hji
  rw [hfalse] at hincl
  exact Bool.noConfusion hincl

theorem buildGraph_row_exclusion_witness :
    (3 < demoRows.length ∧
      (getVal (demoRows.getD 3 default) "A" = "" ∨ getVal (demoRows.getD 3 default) "B" = "")) ∧
    ((∀ (st : BuildState) (j : Nat), stepRow "A" "B" st (j, demoRows.getD 3 default) = st) ∧
      (∀ (k : String) (e : LinkEntry), (k, e) ∈ (buildGraph demoRows "A" "B").byLinkKey →
        (3 + 1) ∉ e.refIds)) :=
  ⟨⟨by decide, by decide⟩,
    buildGraph_row_exclusion demoRows "A" "B" 3 (by decide) (by decide)⟩

/-- C2: Aggregation and reference-numbering invariant.  Every stored link entry
has `count` equal to the length of its reference list, the list is strictly
increasing (row-encounter order), and it holds exactly the 1-based positions of
the included rows whose (source value, target value) pair produced this link's
aggregation key. -/
theorem buildGraph_aggregation_invariant (rows : List Row) (a b : String)
    (k : String) (e : LinkEntry)
    (hmem : (k, e) ∈ (buildGraph rows a b).byLinkKey) :
    e.count = e.refIds.length ∧
    e.refIds.Sorted (· < ·) ∧
    (∀ x : Nat, x ∈ e.refIds ↔
      ∃ j, j < rows.length ∧ x = j + 1 ∧
        includedB a b (rows.getD j default) = true ∧
        rowKey a b (rows.getD j default) = k) := by
  rw [byLinkKey_buildGraph] at hmem
  simp only [List.mem_map, Prod.mk.injEq] at hmem
  obtain ⟨k', hk', rfl, rfl⟩ := hmem
  refine ⟨rfl, refIdsSpec_sorted a b k' rows 0, ?_⟩
  intro x
  have hiff := mem_refIdsSpec a b k' rows 0 x
  constructor
  · intro hx
    obtain ⟨j, h1, h2, h3, h4⟩ := hiff.mp hx
    exact ⟨j, h1, by omega, h3, h4⟩
  · rintro ⟨j, h1, h2, h3, h4⟩
    exact hiff.mpr ⟨j, h1, by omega, h3, h4⟩

theorem buildGraph_aggregation_invariant_witness :
    (("x|||p", ({ count := 2, refIds := [1, 2] } : LinkEntry)) ∈
        (buildGraph demoRows "A" "B").byLinkKey) ∧
    (2 = ([1, 2] : List Nat).length ∧
      ([1, 2] : List Nat).Sorted (· < ·) ∧
      (∀ x : Nat, x ∈ ([1, 2] : List Nat) ↔
        ∃ j, j < demoRows.length ∧ x = j + 1 ∧
          includedB "A" "B" (demoRows.getD j default) = true ∧
          rowKey "A" "B" (demoRows.getD j default) = "x|||p")) :=
  ⟨by decide,
    buildGraph_aggregation_invariant demoRows "A" "B" "x|||p"
      { count := 2, refIds := [1, 2] } (by decide)⟩

/-- C4: Build determinism and output ordering.  `buildGraph` on equal inputs
yields equal results, the node sequence is the source-side values in
first-encounter order followed by the target-side values in first-encounter
order, and the link sequence is in first-encounter order of the aggregation
key, carrying the key's count and reference list. -/
theorem buildGraph_deterministic_ordering (rows₁ rows₂ : List Row)
    (a₁ a₂ b₁ b₂ : String) (hr : rows₁ = rows₂) (ha : a₁ = a₂) (hb : b₁ = b₂) :
    buildGraph rows₁ a₁ b₁ = buildGraph rows₂ a₂ b₂ ∧
    (buildGraph rows₁ a₁ b₁).graph.nodes =
      (firstDedup (srcVals a₁ b₁ rows₁)).map mkSrcNode ++
        (firstDedup (tgtVals a₁ b₁ rows₁)).map mkTgtNode ∧
    (buildGraph rows₁ a₁ b₁).graph.links =
      (firstDedup (keyVals a₁ b₁ rows₁)).map
        (fun k => linkOfKey (k, entrySpec a₁ b₁ k rows₁)) := by
  subst hr ha hb
  exact ⟨rfl, nodes_buildGraph _ _ _, links_buildGraph _ _ _⟩

theorem buildGraph_deterministic_ordering_witness :
    (demoRows = demoRows ∧ "A" = "A" ∧ "B" = "B") ∧
    (buildGraph demoRows "A" "B" = buildGraph demoRows "A" "B" ∧
      (buildGraph demoRows "A" "B").graph.nodes =
        (firstDedup (srcVals "A" "B" demoRows)).map mkSrcNode ++
          (firstDedup (tgtVals "A" "B" demoRows)).map mkTgtNode ∧
      (buildGraph demoRows "A" "B").graph.links =
        (firstDedup (keyVals "A" "B" demoRows)).map
          (fun k => linkOfKey (k, entrySpec "A" "B" k demoRows))) :=
  ⟨⟨rfl, rfl, rfl⟩,
    buildGraph_deterministic_ordering demoRows demoRows "A" "A" "B" "B" rfl rfl rfl⟩

theorem mem_nodes_buildGraph (rows : List Row) (a b : String) (n : GNode) :
    n ∈ (buildGraph rows a b).graph.nodes ↔
      (∃ v, v ∈ firstDedup (srcVals a b rows) ∧ n = mkSrcNode v) ∨
      (∃ v, v ∈ firstDedup (tgtVals a b rows) ∧ n = mkTgtNode v) := by
  rw [nodes_buildGraph, List.mem_append]
  simp only [List.mem_map]
  constructor
  · rintro (⟨v, hv, rfl⟩ | ⟨v, hv, rfl⟩)
    · exact Or.inl ⟨v, hv, rfl⟩
    · exact Or.inr ⟨v, hv, rfl⟩
  · rintro (⟨v, hv, rfl⟩ | ⟨v, hv, rfl⟩)
    · exact Or.inl ⟨v, hv, rfl⟩
    · exact Or.inr ⟨v, hv, rfl⟩

/-- C5: Node identity disambiguation.  Node identity is unique per
(side, value): equal side and name force equal nodes, all node ids are
pairwise distinct, every node's id is its role prefix (`S:`/`T:`) plus its
value, and a value appearing on both sides yields two distinct
role-prefixed ids. -/
theorem buildGraph_node_identity (rows : List Row) (a b : String) :
    (∀ n₁, n₁ ∈ (buildGraph rows a b).graph.nodes →
      ∀ n₂, n₂ ∈ (buildGraph rows a b).graph.nodes →
        n₁.side = n₂.side → n₁.name = n₂.name → n₁ = n₂) ∧
    ((buildGraph rows a b).graph.nodes.map GNode.id).Nodup ∧
    (∀ n, n ∈ (buildGraph rows a b).graph.nodes →
      (n.side = "left" ∧ n.id = "S:" ++ n.name) ∨
      (n.side = "right" ∧ n.id = "T:" ++ n.name)) ∧
    (∀ n₁, n₁ ∈ (buildGraph rows a b).graph.nodes →
      ∀ n₂, n₂ ∈ (buildGraph rows a b).graph.nodes →
        n₁.name = n₂.name → n₁.side ≠ n₂.side → n₁.id ≠ n₂.id) := by
  have hserr : ("left" : String) ≠ "right" := by decide
  refine ⟨?_, ?_, ?_, ?_⟩
  · intro n₁ h₁ n₂ h₂ hside hname
    rcases (mem_nodes_buildGraph rows a b n₁).mp h₁ with ⟨v₁, _, rfl⟩ | ⟨v₁, _, rfl⟩ <;>
      rcases (mem_nodes_buildGraph rows a b n₂).mp h₂ with ⟨v₂, _, rfl⟩ | ⟨v₂, _, rfl⟩
    · rw [show v₁ = v₂ from hname]
    · exact absurd hside hserr
    · exact absurd hside (fun h => hserr h.symm)
    · rw [show v₁ = v₂ from hname]
  · rw [nodes_buildGraph, List.map_append, List.map_map, List.map_map]
    have hS : (GNode.id ∘ mkSrcNode) = fun v => "S:" ++ v := rfl
    have hT : (GNode.id ∘ mkTgtNode) = fun v => "T:" ++ v := rfl
    rw [hS, hT]
    refine List.Nodup.append ?_ ?_ ?_
    · exact (nodup_firstDedup _).map (fun x y h => sPrefix_inj h)
    · exact (nodup_firstDedup _).map (fun x y h => tPrefix_inj h)
    · intro x hx hy
      obtain ⟨v, _, rfl⟩ := List.mem_map.mp hx
      obtain ⟨w, _, hw⟩ := List.mem_map.mp hy
      exact sPrefix_ne_tPrefix v w hw.symm
  · intro n hn
    rcases (mem_nodes_buildGraph rows a b n).mp hn with ⟨v, _, rfl⟩ | ⟨v, _, rfl⟩
    · exact Or.inl ⟨rfl, rfl⟩
    · exact Or.inr ⟨rfl, rfl⟩
  · intro n₁ h₁ n₂ h₂ hname hside
    rcases (mem_nodes_buildGraph rows a b n₁).mp h₁ with ⟨v₁, _, rfl⟩ | ⟨v₁, _, rfl⟩ <;>
      rcases (mem_nodes_buildGraph rows a b n₂).mp h₂ with ⟨v₂, _, rfl⟩ | ⟨v₂, _, rfl⟩
    · exact absurd rfl hside
    · exact sPrefix_ne_tPrefix v₁ v₂
    · exact fun h => sPrefix_ne_tPrefix v₂ v₁ h.symm
    · exact absurd rfl hside

theorem buildGraph_node_identity_witness :
    (mkSrcNode "x" ∈ (buildGraph bothRows "A" "B").graph.nodes ∧
      mkTgtNode "x" ∈ (buildGraph bothRows "A" "B").graph.nodes ∧
      (mkSrcNode "x").name = (mkTgtNode "x").name ∧
      (mkSrcNode "x").side ≠ (mkTgtNode "x").side) ∧
    (mkSrcNode "x").id ≠ (mkTgtNode "x").id :=
  ⟨⟨by decide, by decide, by decide, by decide⟩,
    (buildGraph_node_identity bothRows "A" "B").2.2.2
      (mkSrcNode "x") (by decide) (mkTgtNode "x") (by decide) (by decide) (by decide)⟩

/-- C9: Degenerate inputs never throw.  `renderSankey` is a total function into
the three explicit outcomes; an unset/empty column selection yields the select
placeholder without building; zero qualifying links (in particular empty rows,
where zero nodes and zero links are built) yield a placeholder, never a
rendered graph. -/
theorem renderSankey_degenerate (rows : List Row) (a b : Option String) :
    (truthyStr a = false ∨ truthyStr b = false →
      renderSankey rows a b = RenderResult.placeholderSelect) ∧
    (∀ s t : String, ((buildGraph rows s t).graph.links = [] ↔
      (buildGraph rows s t).graph.nodes = [])) ∧
    (rows = [] → ∀ s t : String,
      (buildGraph rows s t).graph.nodes = [] ∧ (buildGraph rows s t).graph.links = []) ∧
    (∀ s t : String, a = some s → b = some t →
      (buildGraph rows s t).graph.links = [] →
      renderSankey rows a b = RenderResult.placeholderSelect ∨
        renderSankey rows a b = RenderResult.placeholderNoConnections) ∧
    (renderSankey rows a b = RenderResult.placeholderSelect ∨
      renderSankey rows a b = RenderResult.placeholderNoConnections ∨
      ∃ r, renderSankey rows a b = RenderResult.rendered r ∧ r.graph.links ≠ []) := by
  refine ⟨?_, ?_, ?_, ?_, ?_⟩
  · rintro (h | h) <;> simp [renderSankey, h]
  · intro s t
    rw [links_eq_nil_iff, nodes_eq_nil_iff]
  · rintro rfl s t
    exact ⟨rfl, rfl⟩
  · rintro s t rfl rfl hlinks
    by_cases hs : s = ""
    · left
      simp [renderSankey, truthyStr, hs]
    · by_cases ht : t = ""
      · left
        simp [renderSankey, truthyStr, ht]
      · right
        have hcond : (!(truthyStr (some s)) || !(truthyStr (some t))) = false := by
          simp [truthyStr, hs, ht]
        simp only [renderSankey, hcond, Bool.false_eq_true, if_false, Option.getD_some]
        rw [if_pos hlinks]
  · by_cases h1 : (!(truthyStr a) || !(truthyStr b)) = true
    · left
      simp only [renderSankey, h1, if_true]
    · by_cases h2 : (buildGraph rows (a.getD "") (b.getD "")).graph.links = []
      · right; left
        simp only [renderSankey, h1, Bool.false_eq_true, if_false]
        simp only [h2, if_true]
      · right; right
        refine ⟨buildGraph rows (a.getD "") (b.getD ""), ?_, h2⟩
        simp only [renderSankey, h1, Bool.false_eq_true, if_false]
        simp only [h2, if_false]

theorem renderSankey_degenerate_witness :
    truthyStr none = false ∧
    renderSankey [] none (some "B") = RenderResult.placeholderSelect ∧
    ((buildGraph ([] : List Row) "A" "B").graph.nodes = [] ∧
      (buildGraph ([] : List Row) "A" "B").graph.links = []) :=
  ⟨by decide,
    (renderSankey_degenerate [] none (some "B")).1 (Or.inl (by decide)),
    (renderSankey_degenerate [] none (some "B")).2.2.1 rfl "A" "B"⟩

theorem processRowsV0_eq (a b : String) :
    ∀ (rows : List Row) (st : BuildState) (i : Nat),
      processRowsV0 a b st i rows = processRows a b st i rows := by
  intro rows
  induction rows with
  | nil => intro st i; rfl
  | cons r rs ih =>
    intro st i
    show processRowsV0 a b (stepRowV0 a b st (i, r)) (i + 1) rs =
      processRows a b (stepRow a b st (i, r)) (i + 1) rs
    rw [show stepRowV0 a b st (i, r) = stepRow a b st (i, r) from rfl]
    exact ih _ _

/-- C10: Version equivalence of the aggregation core.  The `buildGraph` of the
older rendering module computes exactly the same result (nodes, order, link
keys, counts, reference lists, maximum) as the current one, on every input. -/
theorem buildGraphV0_eq_buildGraph (rows : List Row) (a b : String) :
    buildGraphV0 rows a b = buildGraph rows a b := by
  unfold buildGraphV0 buildGraph
  rw [processRowsV0_eq]
  rw [show linkOfKeyV0 = linkOfKey from rfl]

theorem startsSep_iff (l : List Char) :
    startsSep l = true ↔ ∃ rest, l = '|' :: '|' :: '|' :: rest := by
  unfold startsSep
  rw [decide_eq_true_iff]
  constructor
  · intro h
    match l, h with
    | c :: d :: e :: rest, h =>
      simp only [List.take, List.cons.injEq] at h
      obtain ⟨rfl, rfl, rfl, -⟩ := h
      exact ⟨rest, rfl⟩
  · rintro ⟨rest, rfl⟩
    rfl

theorem splitSepL_sep_cons (rest : List Char) :
    splitSepL ('|' :: '|' :: '|' :: rest) = [] :: splitSepL rest := rfl

theorem splitSepL_cons_neg (c : Char) (cs : List Char) (h : startsSep (c :: cs) = false) :
    splitSepL (c :: cs) =
      match splitSepL cs with
      | [] => [[c]]
      | seg :: rest => (c :: seg) :: rest := by
  rw [splitSepL.eq_def]
  simp only [h, Bool.false_eq_true, if_false]

theorem splitSepL_nil : splitSepL [] = [[]] := rfl

/-- A list with no separator occurrence splits into itself. -/
theorem splitSepL_sepFree (l : List Char) (h : ¬ sepL <:+: l) : splitSepL l = [l] := by
  induction l with
  | nil => exact splitSepL_nil
  | cons c cs ih =>
    have hstart : startsSep (c :: cs) = false := by
      cases hss : startsSep (c :: cs) with
      | false => rfl
      | true =>
        obtain ⟨rest, heq⟩ := (startsSep_iff _).mp hss
        rw [heq] at h
        exact absurd ⟨[], rest, rfl⟩ h
    rw [splitSepL_cons_neg c cs hstart, ih (fun hi => h (List.infix_cons hi))]

/-- The boundary split: if `s` has no separator occurrence and does not end in a
bar, then the first separator of `s ++ sepL ++ t` is exactly the inserted one. -/
theorem splitSepL_boundary :
    ∀ (s t : List Char), ¬ sepL <:+: s → s.getLast? ≠ some '|' →
      splitSepL (s ++ (sepL ++ t)) = s :: splitSepL t := by
  intro s
  induction s with
  | nil =>
    intro t _ _
    rw [List.nil_append]
    show splitSepL ('|' :: '|' :: '|' :: t) = [] :: splitSepL t
    rw [splitSepL_sep_cons t]
  | cons c s' ih =>
    intro t h1 h2
    rw [List.cons_append]
    have hstart : startsSep (c :: (s' ++ (sepL ++ t))) = false := by
      cases hss : startsSep (c :: (s' ++ (sepL ++ t))) with
      | false => rfl
      | true =>
        obtain ⟨rest, heq⟩ := (startsSep_iff _).mp hss
        obtain ⟨hc, heq1⟩ := List.cons.inj heq
        subst hc
        cases s' with
        | nil => exact absurd rfl h2
        | cons d s'' =>
          rw [List.cons_append] at heq1
          obtain ⟨hd, heq2⟩ := List.cons.inj heq1
          subst hd
          cases s'' with
          | nil => exact absurd rfl h2
          | cons e s''' =>
            rw [List.cons_append] at heq2
            obtain ⟨he, -⟩ := List.cons.inj heq2
            subst he
            exact absurd ⟨[], s''', rfl⟩ h1
    have hs' : ¬ sepL <:+: s' := fun hi => h1 (List.infix_cons hi)
    have hlast' : s'.getLast? ≠ some '|' := by
      cases s' with
      | nil => simp
      | cons d s'' => rwa [List.getLast?_cons_cons] at h2
    rw [splitSepL_cons_neg _ _ hstart, ih t hs' hlast']

theorem string_mk_data (s : String) : String.mk s.data = s := by
  cases s
  rfl

/-- Splitting an aggregation key recovers the pair, for benign values. -/
theorem splitKey_mkKey (s t : String) (hs : sepFree s) (hsb : noBarEnd s)
    (ht : sepFree t) : splitKey (mkKey s t) = [s, t] := by
  unfold splitKey mkKey
  have hdata : (s ++ sepStr ++ t).data = s.data ++ (sepL ++ t.data) := by
    rw [string_data_append, string_data_append, List.append_assoc]
    rfl
  rw [hdata, splitSepL_boundary s.data t.data hs hsb, splitSepL_sepFree t.data ht]
  simp [string_mk_data]

theorem mkKey_inj {s t s' t' : String} (hs : sepFree s) (hsb : noBarEnd s)
    (ht : sepFree t) (hs' : sepFree s') (hsb' : noBarEnd s') (ht' : sepFree t')
    (h : mkKey s t = mkKey s' t') : s = s' ∧ t = t' := by
  have h1 : [s, t] = [s', t'] := by
    rw [← splitKey_mkKey s t hs hsb ht, h, splitKey_mkKey s' t' hs' hsb' ht']
  exact ⟨(List.cons.inj h1).1, (List.cons.inj (List.cons.inj h1).2).1⟩

theorem mem_keyVals (a b : String) (rows : List Row) (k : String) :
    k ∈ keyVals a b rows ↔
      ∃ r ∈ rows, includedB a b r = true ∧ rowKey a b r = k := by
  rw [keyVals, List.mem_filterMap]
  constructor
  · rintro ⟨r, hr, hfr⟩
    by_cases hin : includedB a b r
    · rw [if_pos hin] at hfr
      exact ⟨r, hr, hin, Option.some.inj hfr⟩
    · rw [if_neg hin] at hfr
      exact absurd hfr (by simp)
  · rintro ⟨r, hr, hin, hk⟩
    exact ⟨r, hr, by rw [if_pos hin, hk]⟩

theorem mem_pairVals (a b : String) (rows : List Row) (p : String × String) :
    p ∈ pairVals a b rows ↔
      ∃ r ∈ rows, includedB a b r = true ∧ (getVal r a, getVal r b) = p := by
  rw [pairVals, List.mem_filterMap]
  constructor
  · rintro ⟨r, hr, hfr⟩
    by_cases hin : includedB a b r
    · rw [if_pos hin] at hfr
      exact ⟨r, hr, hin, Option.some.inj hfr⟩
    · rw [if_neg hin] at hfr
      exact absurd hfr (by simp)
  · rintro ⟨r, hr, hin, hk⟩
    exact ⟨r, hr, by rw [if_pos hin, hk]⟩

theorem mem_srcVals (a b : String) (rows : List Row) (v : String) :
    v ∈ srcVals a b rows ↔
      ∃ r ∈ rows, includedB a b r = true ∧ getVal r a = v := by
  rw [srcVals, List.mem_filterMap]
  constructor
  · rintro ⟨r, hr, hfr⟩
    by_cases hin : includedB a b r
    · rw [if_pos hin] at hfr
      exact ⟨r, hr, hin, Option.some.inj hfr⟩
    · rw [if_neg hin] at hfr
      exact absurd hfr (by simp)
  · rintro ⟨r, hr, hin, hk⟩
    exact ⟨r, hr, by rw [if_pos hin, hk]⟩

theorem mem_tgtVals (a b : String) (rows : List Row) (v : String) :
    v ∈ tgtVals a b rows ↔
      ∃ r ∈ rows, includedB a b r = true ∧ getVal r b = v := by
  rw [tgtVals, List.mem_filterMap]
  constructor
  · rintro ⟨r, hr, hfr⟩
    by_cases hin : includedB a b r
    · rw [if_pos hin] at hfr
      exact ⟨r, hr, hin, Option.some.inj hfr⟩
    · rw [if_neg hin] at hfr
      exact absurd hfr (by simp)
  · rintro ⟨r, hr, hin, hk⟩
    exact ⟨r, hr, by rw [if_pos hin, hk]⟩

theorem keyVals_eq_map_pairVals (a b : String) (rows : List Row) :
    keyVals a b rows = (pairVals a b rows).map (fun p => mkKey p.1 p.2) := by
  rw [pairVals, List.map_filterMap]
  unfold keyVals
  congr 1
  funext r
  by_cases hin : includedB a b r <;> simp [hin, rowKey]

/-- First-occurrence dedup commutes with a map that is injective on a covering
list. -/
theorem dedupFrom_map {α β : Type} [DecidableEq α] [DecidableEq β] (f : α → β)
    (L : List α) (hinj : ∀ x ∈ L, ∀ y ∈ L, f x = f y → x = y) :
    ∀ (l acc : List α), acc ⊆ L → l ⊆ L →
      dedupFrom (acc.map f) (l.map f) = (dedupFrom acc l).map f := by
  intro l
  induction l with
  | nil => intro acc _ _; rfl
  | cons v vs ih =>
    intro acc hacc hl
    have hvL : v ∈ L := hl (List.mem_cons_self _ _)
    have hvs : vs ⊆ L := fun x hx => hl (List.mem_cons_of_mem _ hx)
    rw [List.map_cons, dedupFrom, dedupFrom]
    have hmem : (f v ∈ acc.map f) ↔ v ∈ acc := by
      constructor
      · intro hm
        obtain ⟨x, hx, hfx⟩ := List.mem_map.mp hm
        rwa [hinj x (hacc hx) v hvL hfx] at hx
      · exact fun hm => List.mem_map_of_mem f hm
    by_cases hv : v ∈ acc
    · rw [if_pos (hmem.mpr hv), if_pos hv]
      exact ih acc hacc hvs
    · rw [if_neg (fun hm => hv (hmem.mp hm)), if_neg hv]
      have hmap : List.map f acc ++ [f v] = List.map f (acc ++ [v]) := by simp
      rw [hmap]
      exact ih (acc ++ [v]) (List.append_subset.mpr ⟨hacc, by simpa using hvL⟩) hvs

theorem firstDedup_map {α β : Type} [DecidableEq α] [DecidableEq β] (f : α → β)
    (l : List α) (hinj : ∀ x ∈ l, ∀ y ∈ l, f x = f y → x = y) :
    firstDedup (l.map f) = (firstDedup l).map f :=
  dedupFrom_map f l hinj l [] (by simp) (fun x hx => hx)

/-- C3 (amended): link/pair one-to-one correspondence with valid endpoints,
provided no included value contains the separator substring `"|||"` and no
included source value ends with the bar character.  Links are then in bijection
with the distinct included (source value, target value) pairs in first-encounter
order, and every link's source and target ids name nodes of the graph. -/
theorem buildGraph_links_pairs (rows : List Row) (a b : String)
    (hgood : ∀ r ∈ rows, includedB a b r = true → goodRow a b r) :
    ((buildGraph rows a b).graph.links.map (fun l => (l.source, l.target)) =
      (firstDedup (pairVals a b rows)).map (fun p => ("S:" ++ p.1, "T:" ++ p.2))) ∧
    (∀ l ∈ (buildGraph rows a b).graph.links,
      (∃ n ∈ (buildGraph rows a b).graph.nodes, n.id = l.source) ∧
      (∃ n ∈ (buildGraph rows a b).graph.nodes, n.id = l.target)) := by
  have hgoodP : ∀ p ∈ pairVals a b rows,
      sepFree p.1 ∧ noBarEnd p.1 ∧ sepFree p.2 := by
    intro p hp
    obtain ⟨r, hr, hin, hpr⟩ := (mem_pairVals a b rows p).mp hp
    obtain ⟨g1, g2, g3⟩ := hgood r hr hin
    rw [← hpr]
    exact ⟨g1, g2, g3⟩
  have hinj : ∀ p ∈ pairVals a b rows, ∀ q ∈ pairVals a b rows,
      mkKey p.1 p.2 = mkKey q.1 q.2 → p = q := by
    intro p hp q hq hk
    obtain ⟨hp1, hp2, hp3⟩ := hgoodP p hp
    obtain ⟨hq1, hq2, hq3⟩ := hgoodP q hq
    obtain ⟨h1, h2⟩ := mkKey_inj hp1 hp2 hp3 hq1 hq2 hq3 hk
    exact Prod.ext h1 h2
  have hlinks : (buildGraph rows a b).graph.links =
      (firstDedup (pairVals a b rows)).map
        (fun p => linkOfKey (mkKey p.1 p.2, entrySpec a b (mkKey p.1 p.2) rows)) := by
    rw [links_buildGraph, keyVals_eq_map_pairVals,
      firstDedup_map _ _ hinj, List.map_map]
    rfl
  have hlink_form : ∀ p ∈ firstDedup (pairVals a b rows),
      linkOfKey (mkKey p.1 p.2, entrySpec a b (mkKey p.1 p.2) rows) =
        { source := "S:" ++ p.1, target := "T:" ++ p.2,
          value := (entrySpec a b (mkKey p.1 p.2) rows).count } := by
    intro p hp
    obtain ⟨g1, g2, g3⟩ := hgoodP p ((mem_firstDedup _ _).mp hp)
    unfold linkOfKey
    rw [splitKey_mkKey p.1 p.2 g1 g2 g3]
    rfl
  constructor
  · rw [hlinks, List.map_map]
    apply List.map_congr_left
    intro p hp
    show (fun l => (l.source, l.target)) (linkOfKey _) = _
    rw [hlink_form p hp]
  · intro l hl
    rw [hlinks] at hl
    obtain ⟨p, hp, hpl⟩ := List.mem_map.mp hl
    rw [hlink_form p hp] at hpl
    obtain ⟨r, hr, hin, hpr⟩ :=
      (mem_pairVals a b rows p).mp ((mem_firstDedup _ _).mp hp)
    constructor
    · refine ⟨mkSrcNode p.1, ?_, by rw [← hpl]; rfl⟩
      apply (mem_nodes_buildGraph rows a b _).mpr
      refine Or.inl ⟨p.1, ?_, rfl⟩
      apply (mem_firstDedup _ _).mpr
      exact (mem_srcVals a b rows p.1).mpr ⟨r, hr, hin, by rw [← hpr]⟩
    · refine ⟨mkTgtNode p.2, ?_, by rw [← hpl]; rfl⟩
      apply (mem_nodes_buildGraph rows a b _).mpr
      refine Or.inr ⟨p.2, ?_, rfl⟩
      apply (mem_firstDedup _ _).mpr
      exact (mem_tgtVals a b rows p.2).mpr ⟨r, hr, hin, by rw [← hpr]⟩

theorem buildGraph_links_pairs_witness :
    (∀ r ∈ demoRows, includedB "A" "B" r = true → goodRow "A" "B" r) ∧
    (((buildGraph demoRows "A" "B").graph.links.map (fun l => (l.source, l.target)) =
      (firstDedup (pairVals "A" "B" demoRows)).map (fun p => ("S:" ++ p.1, "T:" ++ p.2))) ∧
    (∀ l ∈ (buildGraph demoRows "A" "B").graph.links,
      (∃ n ∈ (buildGraph demoRows "A" "B").graph.nodes, n.id = l.source) ∧
      (∃ n ∈ (buildGraph demoRows "A" "B").graph.nodes, n.id = l.target))) :=
  ⟨by decide, buildGraph_links_pairs demoRows "A" "B" (by decide)⟩

/-- C3 (counterexample to the claim as stated): a source value containing the
internal separator `"|||"` produces a link whose endpoint ids name no node of
the graph, so the claim's "including when a value contains the internal
key-separator substring" fails on the code. -/
theorem buildGraph_sep_collision_cex :
    (buildGraph [[("A", "a|||b"), ("B", "c")]] "A" "B").graph.links =
      [{ source := "S:a", target := "T:b", value := 1 }] ∧
    (buildGraph [[("A", "a|||b"), ("B", "c")]] "A" "B").graph.nodes.map GNode.id =
      ["S:a|||b", "T:c"] ∧
    (∀ n ∈ (buildGraph [[("A", "a|||b"), ("B", "c")]] "A" "B").graph.nodes,
      n.id ≠ "S:a" ∧ n.id ≠ "T:b") := by
  decide

theorem whileIdx_le (c : ℚ) : ∀ l : List ℚ, whileIdx c l ≤ l.length := by
  intro l
  induction l with
  | nil => exact Nat.le_refl 0
  | cons x xs ih =>
    rw [whileIdx]
    by_cases h : x < c
    · rw [if_pos h]
      exact Nat.succ_le_succ ih
    · rw [if_neg h]
      exact Nat.zero_le _

theorem whileIdx_lt_of_lt (c : ℚ) :
    ∀ (l : List ℚ) (j : Nat), j < whileIdx c l → l.getD j 0 < c := by
  intro l
  induction l with
  | nil => intro j hj; exact absurd hj (by simp [whileIdx])
  | cons x xs ih =>
    intro j hj
    rw [whileIdx] at hj
    by_cases h : x < c
    · rw [if_pos h] at hj
      cases j with
      | zero => exact h
      | succ j' => exact ih j' (Nat.lt_of_succ_lt_succ hj)
    · rw [if_neg h] at hj
      exact absurd hj (Nat.not_lt_zero j)

theorem whileIdx_ge (c : ℚ) :
    ∀ l : List ℚ, whileIdx c l < l.length → c ≤ l.getD (whileIdx c l) 0 := by
  intro l
  induction l with
  | nil => intro h; exact absurd h (by simp [whileIdx])
  | cons x xs ih =>
    intro hlt
    rw [whileIdx] at hlt ⊢
    by_cases h : x < c
    · rw [if_pos h] at hlt ⊢
      exact ih (Nat.lt_of_succ_lt_succ hlt)
    · rw [if_neg h] at hlt ⊢
      exact le_of_not_lt h

theorem whileIdx_all (c : ℚ) :
    ∀ l : List ℚ, (∀ x ∈ l, x < c) → whileIdx c l = l.length := by
  intro l
  induction l with
  | nil => intro _; rfl
  | cons x xs ih =>
    intro h
    rw [whileIdx, if_pos (h x (List.mem_cons_self _ _)), List.length_cons]
    rw [ih (fun y hy => h y (List.mem_cons_of_mem _ hy))]

/-- C6: Drag Move insertIndex rule.  During a Move, the dragged node is placed
at the pointer position clamped to the column extent minus its height, and the
insertion index is the first index in the ordered sibling list whose center is
at or above the clamped candidate center, or the sibling count when every
center is below it (dragging past all siblings). -/
theorem drag_move_spec (height eventY nh c : ℚ) (st : DragState)
    (hnh : nh = max 8 (st.d.y1 - st.d.y0))
    (hc : c = clampY height nh eventY + nh / 2)
    (hfit : (20 : ℚ) ≤ height - 20 - nh) :
    ((dragMove height st eventY).d.y0 = clampY height nh eventY ∧
      (dragMove height st eventY).d.y1 = clampY height nh eventY + nh) ∧
    (20 ≤ clampY height nh eventY ∧ clampY height nh eventY ≤ height - 20 - nh) ∧
    (20 ≤ eventY → eventY ≤ height - 20 - nh → clampY height nh eventY = eventY) ∧
    ((dragMove height st eventY).insertIdx = some (whileIdx c (centersOf st.peers))) ∧
    whileIdx c (centersOf st.peers) ≤ st.peers.length ∧
    (∀ j, j < whileIdx c (centersOf st.peers) → (centersOf st.peers).getD j 0 < c) ∧
    (whileIdx c (centersOf st.peers) < st.peers.length →
      c ≤ (centersOf st.peers).getD (whileIdx c (centersOf st.peers)) 0) ∧
    ((∀ p ∈ st.peers, (p.y0 + p.y1) / 2 < c) →
      whileIdx c (centersOf st.peers) = st.peers.length) := by
  subst hnh
  subst hc
  refine ⟨⟨rfl, rfl⟩, ⟨le_max_left _ _, ?_⟩, ?_, rfl, ?_, ?_, ?_, ?_⟩
  · exact max_le hfit (min_le_left _ _)
  · intro h1 h2
    rw [clampY, min_eq_right h2, max_eq_right h1]
  · rw [show st.peers.length = (centersOf st.peers).length by rw [centersOf, List.length_map]]
    exact whileIdx_le _ _
  · exact whileIdx_lt_of_lt _ _
  · intro h
    apply whileIdx_ge
    rwa [centersOf, List.length_map]
  · intro h
    rw [whileIdx_all _ _ ?_, centersOf, List.length_map]
    intro x hx
    obtain ⟨p, hp, rfl⟩ := List.mem_map.mp hx
    exact h p hp

theorem drag_move_spec_witness :
    ((100 : ℚ) = max 8 (demoDragState.d.y1 - demoDragState.d.y0) ∧
      (70 : ℚ) = clampY 480 100 10 + 100 / 2 ∧
      (20 : ℚ) ≤ 480 - 20 - 100) ∧
    (dragMove 480 demoDragState 10).d.y0 = 20 ∧
    (dragMove 480 demoDragState 10).insertIdx = some 0 := by
  have h := drag_move_spec 480 10 100 70 demoDragState
    (by norm_num [demoDragState, dragStart, dragDemoNodes])
    (by norm_num [clampY, max_def, min_def])
    (by norm_num)
  refine ⟨⟨by norm_num [demoDragState, dragStart, dragDemoNodes],
    by norm_num [clampY, max_def, min_def], by norm_num⟩, ?_, ?_⟩
  · rw [h.1.1]
    norm_num [clampY, max_def, min_def]
  · rw [h.2.2.2.1]
    norm_num [demoDragState, dragStart, dragDemoNodes, sortByY0, insertByY0, centersOf,
      whileIdx, List.filter, List.foldl]

/-- C8: Drag determinism.  Identical snapshots and identical Move sequences
produce identical final orderings and packed extents. -/
theorem drag_deterministic (height₁ height₂ : ℚ) (s₁ s₂ : DragState) (m₁ m₂ : List ℚ)
    (hh : height₁ = height₂) (hs : s₁ = s₂) (hm : m₁ = m₂) :
    dragEnd (m₁.foldl (dragMove height₁) s₁) = dragEnd (m₂.foldl (dragMove height₂) s₂) := by
  subst hh
  subst hs
  subst hm
  rfl

theorem drag_deterministic_witness :
    ((480 : ℚ) = 480 ∧ demoDragState = demoDragState ∧ ([10, 200] : List ℚ) = [10, 200]) ∧
    dragEnd (([10, 200] : List ℚ).foldl (dragMove 480) demoDragState) =
      dragEnd (([10, 200] : List ℚ).foldl (dragMove 480) demoDragState) :=
  ⟨⟨rfl, rfl, rfl⟩,
    drag_deterministic 480 480 demoDragState demoDragState [10, 200] [10, 200] rfl rfl rfl⟩

theorem lookup_heightsOf_ge (nodes : List LNode) (k : String) :
    ∀ v : ℚ, lookupKV (heightsOf nodes) k = some v → 8 ≤ v := by
  induction nodes with
  | nil => intro v hv; simp [heightsOf] at hv
  | cons n ns ih =>
    intro v hv
    rw [heightsOf, List.map_cons, lookupKV_cons] at hv
    by_cases hk : n.id = k
    · rw [if_pos hk] at hv
      rw [← Option.some.inj hv]
      exact le_max_left _ _
    · rw [if_neg hk] at hv
      exact ih v hv

theorem effHeight_ge_8 (nodes : List LNode) (n : LNode) :
    8 ≤ effHeight (heightsOf nodes) n := by
  unfold effHeight jsOr
  cases hl : lookupKV (heightsOf nodes) n.id with
  | none => exact le_max_left _ _
  | some x =>
    have h8 := lookup_heightsOf_ge nodes n.id x hl
    by_cases hx : x = 0
    · rw [hx] at h8
      exact absurd h8 (by norm_num)
    · show 8 ≤ (if x = 0 then max 8 (n.y1 - n.y0) else x)
      rw [if_neg hx]
      exact h8

/-- The packed column: every extent starts at or after the packing origin with
height at least 8, successive extents are adjacent up to the uniform padding,
extents are pairwise disjoint, and every bottom edge is bounded by the origin
plus the total content height. -/
theorem packAll_props (hts : List (String × ℚ)) (h8 : ∀ n : LNode, 8 ≤ effHeight hts n) :
    ∀ (l : List LNode) (y : ℚ),
      (∀ n ∈ packAll hts y l, y ≤ n.y0 ∧ n.y0 + 8 ≤ n.y1) ∧
      (∀ m : LNode, (packAll hts y l).head? = some m → m.y0 = y) ∧
      List.Chain' (fun m n => n.y0 = m.y1 + nodePad) (packAll hts y l) ∧
      List.Pairwise (fun m n => m.y1 < n.y0) (packAll hts y l) ∧
      (∀ n ∈ packAll hts y l,
        n.y1 + nodePad ≤ y + ((l.map (effHeight hts)).sum + nodePad * (l.length : ℚ))) := by
  intro l
  induction l with
  | nil =>
    intro y
    refine ⟨?_, ?_, ?_, ?_, ?_⟩ <;> simp [packAll]
  | cons n ns ih =>
    intro y
    obtain ⟨ih1, ih2, ih3, ih4, ih5⟩ := ih (y + effHeight hts n + nodePad)
    have hh := h8 n
    have hpad : (0 : ℚ) < nodePad := by norm_num [nodePad]
    have hsum : 0 ≤ (ns.map (effHeight hts)).sum := by
      apply List.sum_nonneg
      intro x hx
      obtain ⟨m, _, rfl⟩ := List.mem_map.mp hx
      linarith [h8 m]
    have hy1 : ({ n with y0 := y, y1 := y + effHeight hts n } : LNode).y1 =
        y + effHeight hts n := rfl
    have hy0 : ({ n with y0 := y, y1 := y + effHeight hts n } : LNode).y0 = y := rfl
    refine ⟨?_, ?_, ?_, ?_, ?_⟩
    · intro m hm
      simp only [packAll] at hm
      rcases List.mem_cons.mp hm with rfl | hm'
      · rw [hy0, hy1]
        exact ⟨le_refl y, by linarith⟩
      · obtain ⟨hm1, hm2⟩ := ih1 m hm'
        exact ⟨by linarith, hm2⟩
    · intro m hm
      simp only [packAll, List.head?_cons, Option.some.injEq] at hm
      rw [← hm, hy0]
    · simp only [packAll]
      rw [List.chain'_cons']
      refine ⟨?_, ih3⟩
      intro m hm
      rw [ih2 m (Option.mem_def.mp hm), hy1]
    · simp only [packAll]
      rw [List.pairwise_cons]
      refine ⟨?_, ih4⟩
      intro m hm
      have h1 := (ih1 m hm).1
      rw [hy1]
      linarith
    · intro m hm
      simp only [packAll] at hm
      simp only [List.map_cons, List.sum_cons, List.length_cons]
      have hprod : (0 : ℚ) ≤ nodePad * (ns.length : ℚ) := by positivity
      have hdist : nodePad * ((ns.length : ℚ) + 1) = nodePad * (ns.length : ℚ) + nodePad := by
        ring
      rcases List.mem_cons.mp hm with rfl | hm'
      · rw [hy1]
        push_cast
        linarith
      · have h5 := ih5 m hm'
        push_cast
        push_cast at h5
        linarith

theorem packAll_heights (hts : List (String × ℚ)) :
    ∀ (l : List LNode) (y : ℚ),
      (packAll hts y l).map (fun n => n.y1 - n.y0) = l.map (effHeight hts) := by
  intro l
  induction l with
  | nil => intro y; rfl
  | cons n ns ih =>
    intro y
    simp only [packAll, List.map_cons]
    rw [ih]
    congr 1
    show (y + effHeight hts n) - y = effHeight hts n
    ring

theorem packAll_length (hts : List (String × ℚ)) (l : List LNode) (y : ℚ) :
    (packAll hts y l).length = l.length := by
  have h := congrArg List.length (packAll_heights hts l y)
  simpa using h

theorem foldl_dragMove_heights (height : ℚ) :
    ∀ (moves : List ℚ) (st : DragState),
      (moves.foldl (dragMove height) st).heights = st.heights := by
  intro moves
  induction moves with
  | nil => intro st; rfl
  | cons m ms ih =>
    intro st
    rw [List.foldl_cons, ih]
    rfl

/-- C7 (amended): packing after drag End.  After any Start → Move* → End
gesture, the column nodes are stacked top-to-bottom with the uniform padding
(no gap, no overlap): successive extents are adjacent up to the padding, all
extents are pairwise disjoint, every extent starts at or below the column's
top bound 20 and has height at least 8, and whenever the column's total packed
content fits within the declared vertical bounds, every extent also respects
the bottom bound `height - 20`. -/
theorem drag_end_packing (height : ℚ) (nodes : List LNode) (d : LNode) (moves : List ℚ) :
    List.Chain' (fun m n => n.y0 = m.y1 + nodePad) (runGesture height nodes d moves) ∧
    (∀ n ∈ runGesture height nodes d moves, 20 ≤ n.y0 ∧ n.y0 + 8 ≤ n.y1) ∧
    List.Pairwise (fun m n => m.y1 < n.y0) (runGesture height nodes d moves) ∧
    ((20 : ℚ) + (((runGesture height nodes d moves).map (fun n => n.y1 - n.y0)).sum +
        nodePad * ((runGesture height nodes d moves).length : ℚ)) ≤ height - 20 + nodePad →
      ∀ n ∈ runGesture height nodes d moves, n.y1 ≤ height - 20) := by
  have hh : (moves.foldl (dragMove height) (dragStart nodes d)).heights = heightsOf nodes := by
    rw [foldl_dragMove_heights]
    rfl
  have h8 : ∀ n : LNode,
      8 ≤ effHeight (moves.foldl (dragMove height) (dragStart nodes d)).heights n := by
    rw [hh]
    exact effHeight_ge_8 nodes
  have hrun : runGesture height nodes d moves =
      packAll (moves.foldl (dragMove height) (dragStart nodes d)).heights 20
        (jsSplice (moves.foldl (dragMove height) (dragStart nodes d)).peers
          ((moves.foldl (dragMove height) (dragStart nodes d)).insertIdx.getD 0)
          (moves.foldl (dragMove height) (dragStart nodes d)).d) := rfl
  obtain ⟨p1, p2, p3, p4, p5⟩ :=
    packAll_props _ h8
      (jsSplice (moves.foldl (dragMove height) (dragStart nodes d)).peers
        ((moves.foldl (dragMove height) (dragStart nodes d)).insertIdx.getD 0)
        (moves.foldl (dragMove height) (dragStart nodes d)).d) 20
  rw [hrun]
  refine ⟨p3, p1, p4, ?_⟩
  intro hfit n hn
  have h5 := p5 n hn
  rw [packAll_heights, packAll_length] at hfit
  linarith

/-- C7 (counterexample to the claim as stated): a column whose content exceeds
the declared vertical bounds is packed past the bottom bound `height - 20` by
the End handler, which starts at the top and never rescales. -/
theorem drag_end_overflow_cex :
    runGesture 480
        [{ id := "a", side := "left", y0 := 20, y1 := 320 },
         { id := "b", side := "left", y0 := 334, y1 := 634 }]
        { id := "a", side := "left", y0 := 20, y1 := 320 } [] =
      [{ id := "a", side := "left", y0 := 20, y1 := 320 },
       { id := "b", side := "left", y0 := 334, y1 := 634 }] ∧
    ∃ n ∈ runGesture 480
        [{ id := "a", side := "left", y0 := 20, y1 := 320 },
         { id := "b", side := "left", y0 := 334, y1 := 634 }]
        { id := "a", side := "left", y0 := 20, y1 := 320 } [],
      ¬ (n.y1 ≤ 480 - 20) := by
  have heval : runGesture 480
      [{ id := "a", side := "left", y0 := 20, y1 := 320 },
       { id := "b", side := "left", y0 := 334, y1 := 634 }]
      { id := "a", side := "left", y0 := 20, y1 := 320 } [] =
      [{ id := "a", side := "left", y0 := 20, y1 := 320 },
       { id := "b", side := "left", y0 := 334, y1 := 634 }] := by
    simp only [runGesture, dragEnd, dragStart, packAll, jsSplice, sortByY0, insertByY0,
      heightsOf, effHeight, jsOr, lookupKV, List.find?, nodePad, List.filter, List.foldl,
      List.map, List.take, List.drop, List.append_eq, List.cons_append, List.nil_append,
      String.reduceBEq, String.reduceEq, Option.getD, Option.map, Option.isSome]
    norm_num [max_def]
  refine ⟨heval, { id := "b", side := "left", y0 := 334, y1 := 634 }, ?_, by norm_num⟩
  rw [heval]
  simp

theorem drag_end_packing_witness :
    ((20 : ℚ) + (((runGesture 480 dragDemoNodes
          { id := "d", side := "left", y0 := 248, y1 := 348 } []).map
            (fun n => n.y1 - n.y0)).sum +
        nodePad * ((runGesture 480 dragDemoNodes
          { id := "d", side := "left", y0 := 248, y1 := 348 } []).length : ℚ)) ≤
      480 - 20 + nodePad) ∧
    (∀ n ∈ runGesture 480 dragDemoNodes
        { id := "d", side := "left", y0 := 248, y1 := 348 } [],
      n.y1 ≤ 480 - 20) := by
  have heval : runGesture 480 dragDemoNodes
      { id := "d", side := "left", y0 := 248, y1 := 348 } [] =
      [{ id := "d", side := "left", y0 := 20, y1 := 120 },
       { id := "a", side := "left", y0 := 134, y1 := 234 },
       { id := "b", side := "left", y0 := 248, y1 := 348 }] := by
    simp only [runGesture, dragEnd, dragStart, packAll, jsSplice, sortByY0, insertByY0,
      heightsOf, effHeight, jsOr, lookupKV, List.find?, nodePad, List.filter, List.foldl,
      List.map, List.take, List.drop, List.append_eq, List.cons_append, List.nil_append,
      String.reduceBEq, String.reduceEq, Option.getD, Option.map, Option.isSome,
      dragDemoNodes]
    norm_num [max_def]
  have hfit : (20 : ℚ) + (((runGesture 480 dragDemoNodes
        { id := "d", side := "left", y0 := 248, y1 := 348 } []).map
          (fun n => n.y1 - n.y0)).sum +
      nodePad * ((runGesture 480 dragDemoNodes
        { id := "d", side := "left", y0 := 248, y1 := 348 } []).length : ℚ)) ≤
      480 - 20 + nodePad := by
    rw [heval]
    norm_num [nodePad]
  exact ⟨hfit,
    (drag_end_packing 480 dragDemoNodes
      { id := "d", side := "left", y0 := 248, y1 := 348 } []).2.2.2 hfit⟩

end Fieldscope






